import Mathlib

/-!
Verification of the BangFS inode-and-chunk engine against its sources.

The Go sources under `bangfuse/` are shallowly embedded here:

* bytes are `Nat` values, byte strings are `List Nat`;
* `uint64` arithmetic that can wrap (the vclock counter, the id
  generator) is modelled with explicit `% 2^64`;
* the chunks bucket is a function `Nat → Option (List Nat)` together
  with the id generator counter (fresh chunk keys);
* fallible operations return `Option` or `Except`; a `none` also
  stands for a Go slice-bounds panic or a loop that would not
  terminate, which can only happen in states that violate the chunk
  invariants (the theorems below never touch those branches);
* loops are embedded as fuel-indexed structural recursions; the fuel
  passed by the wrappers is provably sufficient because every
  iteration of the corresponding Go loop consumes at least one byte
  (or one list element).

Every definition is translated from the repository sources
(`fh.go`, `filenode.go`, `dirnode.go`, `kvstore.go`, `idgen.go`,
`main.go`); the few definitions written from the specification text
instead are explicitly marked in their doc comments.
-/

namespace BangFS

/-- POSIX file-type mask `S_IFMT` (as used via Go `syscall`). -/
def S_IFMT : Nat := 0xF000

/-- POSIX regular-file type bit `S_IFREG`. -/
def S_IFREG : Nat := 0x8000

/-- POSIX directory type bit `S_IFDIR`. -/
def S_IFDIR : Nat := 0x4000

/-- Linux `O_APPEND` open flag (Go `syscall.O_APPEND`). -/
def O_APPEND : Nat := 0x400

/-- One entry of `InodeMeta.Chunks` (proto message `ChunkRef`):
a chunk key (field `Hash`) and the chunk's byte length (field `Size`). -/
structure ChunkRef where
  hash : Nat
  size : Nat
deriving DecidableEq, Repr

/-- The metadata record stored per inode (proto message `InodeMeta`). -/
structure InodeMeta where
  name : String := ""
  parentInode : Nat := 0
  mode : Nat := 0
  uid : Nat := 0
  gid : Nat := 0
  size : Nat := 0
  nlink : Nat := 0
  ctimeNs : Int := 0
  mtimeNs : Int := 0
  atimeNs : Int := 0
  childEntries : List (String × Nat) := []
  chunks : List ChunkRef := []
deriving DecidableEq, Repr

/-- IsDir from `metadata_utils.go`: the mode's type bits equal `S_IFDIR`. -/
def IsDir (meta : InodeMeta) : Bool := meta.mode &&& S_IFMT == S_IFDIR

/-- IsFile from `metadata_utils.go`: the mode's type bits equal `S_IFREG`. -/
def IsFile (meta : InodeMeta) : Bool := meta.mode &&& S_IFMT == S_IFREG

/-- State of the chunks bucket plus the chunk-id generator: `chunkStore`
maps a chunk key to its bytes; `nextKey` models `gChunkidgen` (every key
it has ever issued is below `nextKey`, so keys it issues are fresh). -/
structure FsState where
  chunkStore : Nat → Option (List Nat)
  nextKey : Nat

/-- PutChunk of the KV backend: unconditional insert/overwrite of a chunk. -/
def putChunk (st : FsState) (key : Nat) (data : List Nat) : FsState :=
  { st with chunkStore := fun k => if k = key then some data else st.chunkStore k }

/-- DeleteChunk of the KV backend: removes the chunk value (deleting an
absent key succeeds, as in both Go backends). -/
def deleteChunk (st : FsState) (key : Nat) : FsState :=
  { st with chunkStore := fun k => if k = key then none else st.chunkStore k }

/-- Errno values the embedded operations return (Go `syscall.Errno`). -/
inductive Errno where
  | ok
  | eio
  | enoent
  | eexist
  | enotempty
  | enotsup
  | einval
deriving DecidableEq, Repr

/-! ## Id generator (`idgen.go`) -/

/-- TIME_BITS from `idgen.go`. -/
def TIME_BITS : Nat := 13

/-- SEQ_BITS from `idgen.go`. -/
def SEQ_BITS : Nat := 14

/-- NextId from `idgen.go`, as a function of the values it reads:
`uint64(ms_since_epoch) | (seq_no << SEQ_BITS) | (local_id << (TIME_BITS + SEQ_BITS))`,
with each `uint64` shift/conversion reduced `% 2^64`. -/
def NextId (ms seq localId : Nat) : Nat :=
  (ms % 2 ^ 64) ||| ((seq <<< SEQ_BITS) % 2 ^ 64) |||
    ((localId <<< (TIME_BITS + SEQ_BITS)) % 2 ^ 64)

/-- Modelled from the spec (§4.1): the claimed composite layout, in which
the low 13 bits hold the milliseconds truncated to 13 bits, bits 13..26
hold the sequence number, and bits 27..63 hold the local id, with no
overlap between the three fields. -/
def specIdLayout (ms seq localId : Nat) : Nat :=
  (ms % 2 ^ 13) ||| ((seq % 2 ^ 14) <<< 13) ||| ((localId % 2 ^ 37) <<< 27)

/-! ## Local-file KV backend (`kvstore.go`, `FileKVStore`) -/

/-- Error kinds of the local-file backend's metadata operations. -/
inductive KVErr where
  | notFound
  | conflict
deriving DecidableEq, Repr

/-- Little-endian decoding of a byte list (Go `binary.LittleEndian.Uint64`
reads exactly 8 bytes; the callers below only decode 8-byte lists). -/
def leDecode : List Nat → Nat
  | [] => 0
  | b :: bs => b + 256 * leDecode bs

/-- Little-endian encoding of a `uint64` into 8 bytes
(Go `binary.LittleEndian.PutUint64`). -/
def leEncode64 (v : Nat) : List Nat :=
  [v % 256, v / 2 ^ 8 % 256, v / 2 ^ 16 % 256, v / 2 ^ 24 % 256,
   v / 2 ^ 32 % 256, v / 2 ^ 40 % 256, v / 2 ^ 48 % 256, v / 2 ^ 56 % 256]

/-- State of one metadata key of `FileKVStore`: the contents of
`metadata/<inum>` (already deserialized) and of `metadata/<inum>.vclock`. -/
structure FileKVEntry where
  meta : Option InodeMeta
  vclock : Option (List Nat)
deriving DecidableEq

/-- UpdateMetadata of `FileKVStore` (kvstore.go): read the counter file
(absent counter is reported as not-found), compare it to the caller's
token only when both are exactly 8 bytes, reject mismatches as a
conflict, otherwise write the record and bump the counter the way
`bumpVclock` does (increment a well-formed 8-byte counter `% 2^64`,
reset anything else to 1). -/
def fileUpdateMetadata (e : FileKVEntry) (newMeta : InodeMeta) (vclockIn : List Nat) :
    Except KVErr (FileKVEntry × List Nat) :=
  match e.vclock with
  | none => .error .notFound
  | some current =>
    if vclockIn.length = 8 ∧ current.length = 8 ∧ leDecode vclockIn ≠ leDecode current then
      .error .conflict
    else
      let version := if current.length = 8 then (leDecode current + 1) % 2 ^ 64 else 1
      let nv := leEncode64 version
      .ok ({ meta := some newMeta, vclock := some nv }, nv)

/-! ## File-handle I/O engine (`fh.go`) -/

/-- Loop body of `BangFH.writeAt` (fh.go), fuel-indexed. One iteration
splices part of `data` into the chunk at index `pos / C`: overwriting an
existing chunk re-reads it, grows it with zero padding when the write
runs past a short last chunk, copies the overlap, and replaces the chunk
under a fresh key; past the last chunk, up to `C` bytes are appended as
a new chunk. A `none` models a chunk-fetch failure (Go returns EIO) or a
state in which the Go loop would not progress; every real iteration
consumes at least one byte, so fuel `data.length + 1` is sufficient. -/
def writeAtF (C : Nat) : Nat → FsState → List ChunkRef → List Nat → Nat →
    Option (FsState × List ChunkRef)
  | 0, _, _, _, _ => none
  | fuel + 1, st, chks, data, pos =>
    if data.isEmpty then some (st, chks)
    else
      let ci := pos / C
      let oc := pos % C
      if ci < chks.length then
        (chks[ci]?).bind fun cr =>
          (st.chunkStore cr.hash).bind fun existing =>
            let grown :=
              if oc + data.length > existing.length ∧ existing.length < C then
                existing ++ List.replicate (min C (oc + data.length) - existing.length) 0
              else existing
            let n := min (grown.length - oc) data.length
            if n = 0 then none
            else
              let newBytes := grown.take oc ++ data.take n ++ grown.drop (oc + n)
              let key := st.nextKey
              let st' := putChunk { st with nextKey := st.nextKey + 1 } key newBytes
              writeAtF C fuel st' (chks.set ci ⟨key, newBytes.length⟩) (data.drop n)
                (pos + n)
      else
        let n := min data.length C
        if n = 0 then none
        else
          let key := st.nextKey
          let st' := putChunk { st with nextKey := st.nextKey + 1 } key (data.take n)
          writeAtF C fuel st' (chks ++ [⟨key, n⟩]) (data.drop n) (pos + n)

/-- BangFH.writeAt of fh.go, with its fuel fixed to `data.length + 1`. -/
def writeAt (C : Nat) (st : FsState) (chks : List ChunkRef) (data : List Nat) (pos : Nat) :
    Option (FsState × List ChunkRef) :=
  writeAtF C (data.length + 1) st chks data pos

/-- BangFH.Write of fh.go, in a sequential setting: `meta` is the record
the initial `resyncMetadata` obtained from the backend, so the final
`writeMeta` CAS commits, and the committed record is returned. `O_APPEND`
forces the offset to the file size; a write past EOF first zero-fills the
gap through `writeAt`; the size is updated to `off + len(data)` only when
that exceeds the local `filesize` variable (which the gap fill advances
to `off`). -/
def Write (C flags : Nat) (st : FsState) (meta : InodeMeta) (data : List Nat) (off : Nat) :
    Option (FsState × InodeMeta) :=
  let filesize := meta.size
  let off' := if flags &&& O_APPEND ≠ 0 then filesize else off
  let writeEnd := off' + data.length
  let gapRes :=
    if off' > filesize then
      writeAt C st meta.chunks (List.replicate (off' - filesize) 0) filesize
    else some (st, meta.chunks)
  gapRes.bind fun s1 =>
    (writeAt C s1.1 s1.2 data off').bind fun s2 =>
      let newFilesize := if off' > filesize then off' else filesize
      let newSize := if writeEnd > newFilesize then writeEnd else meta.size
      some (s2.1, { meta with chunks := s2.2, size := newSize })

/-- Chunk-walking loop of `BangFH.Read` (fh.go): skip chunks entirely
before the window, stop once past it, and for each overlapping chunk
fetch its bytes and append the overlapping slice. A `none` models a
chunk-fetch failure (EIO) or a Go slice-bounds panic. -/
def readLoop (st : FsState) (endd off : Nat) : List ChunkRef → Nat → Option (List Nat)
  | [], _ => some []
  | chk :: rest, chunkOffset =>
    let chunkEnd := chunkOffset + chk.size
    if chunkEnd ≤ off then readLoop st endd off rest chunkEnd
    else if chunkOffset ≥ endd then some []
    else
      (st.chunkStore chk.hash).bind fun data =>
        let sliceStart := if off > chunkOffset then off - chunkOffset else 0
        let sliceEnd := if endd < chunkEnd then endd - chunkOffset else chk.size
        if sliceStart ≤ sliceEnd ∧ sliceEnd ≤ data.length then
          (readLoop st endd off rest chunkEnd).map fun restBytes =>
            (data.drop sliceStart).take (sliceEnd - sliceStart) ++ restBytes
        else none

/-- BangFH.Read of fh.go: computed from the handle's metadata `meta` (the
source function does not consult the metadata backend). Returns 0 bytes
when `off ≥ size`, otherwise clamps the window to the file size and walks
the chunks. -/
def Read (st : FsState) (meta : InodeMeta) (destLen off : Nat) : Option (List Nat) :=
  if off ≥ meta.size then some []
  else readLoop st (min (off + destLen) meta.size) off meta.chunks 0

/-! ## File node setattr (`filenode.go`) -/

/-- Fields of a kernel setattr request that are marked as set
(`fuse.SetAttrIn` through its getters, as consulted by Setattr). -/
structure SetAttrIn where
  mode : Option Nat := none
  size : Option Nat := none
  uid : Option Nat := none
  gid : Option Nat := none
  atime : Option Int := none
  mtime : Option Int := none

/-- Complement of `S_IFMT` in `uint32` (Go `^uint32(syscall.S_IFMT)`). -/
def notS_IFMT : Nat := 0xFFFF0FFF

/-- Truncate walk of Setattr (filenode.go): starting from the given
accumulators, add each chunk's size and advance `keep`, stopping as soon
as the cumulative size reaches `sz`. Returns the final `(keep, cumsz)`. -/
def truncWalkAux (sz : Nat) : List ChunkRef → Nat → Nat → Nat × Nat
  | [], keep, cum => (keep, cum)
  | c :: rest, keep, cum =>
    let cum' := cum + c.size
    if cum' ≥ sz then (keep + 1, cum') else truncWalkAux sz rest (keep + 1) cum'

/-- Size-handling step of Setattr (filenode.go): rejects truncation of
non-files and extension; walks the chunks to find `keep`; collects the
keys of chunks `[keep..)` as stale; empties the chunk list for size 0;
otherwise shortens the last kept chunk when the new size falls mid-chunk
by re-writing its prefix under a fresh key (marking the old key stale).
Returns the store after any new chunk write, the updated record, and the
stale keys to delete after the metadata CAS. -/
def truncStep (st : FsState) (meta0 : InodeMeta) (sz : Nat) :
    Except Errno (FsState × InodeMeta × List Nat) :=
  if ¬ IsFile meta0 then .error .enotsup
  else if sz > meta0.size then .error .enotsup
  else
    let chkrefs := meta0.chunks
    let wk := truncWalkAux sz chkrefs 0 0
    let keep := wk.1
    let cumsz := wk.2
    let stale0 := (chkrefs.drop keep).map (·.hash)
    if sz = 0 then .ok (st, { meta0 with chunks := [], size := sz }, stale0)
    else if keep > 0 then
      (chkrefs[keep - 1]?).elim (.error .eio) fun lastRef =>
        let kept := chkrefs.take keep
        let chunkStart := cumsz - lastRef.size
        let newChunkSize := sz - chunkStart
        if newChunkSize < lastRef.size then
          (st.chunkStore lastRef.hash).elim (.error .eio) fun data =>
            if newChunkSize ≤ data.length then
              let key := st.nextKey
              let st' := putChunk { st with nextKey := st.nextKey + 1 } key
                (data.take newChunkSize)
              .ok (st', { meta0 with
                  chunks := kept.set (keep - 1) ⟨key, newChunkSize⟩, size := sz },
                stale0 ++ [lastRef.hash])
            else .error .eio
        else .ok (st, { meta0 with chunks := kept, size := sz }, stale0)
    else .ok (st, { meta0 with chunks := chkrefs, size := sz }, stale0)

/-- Deletion of the stale chunk keys after a successful metadata CAS
(filenode.go; individual failures are logged, not fatal). -/
def applyStale (st : FsState) (stale : List Nat) : FsState :=
  stale.foldl deleteChunk st

/-- BangFileNode.Setattr of filenode.go, in a sequential setting: `meta0`
is the record the initial `kv.Metadata` fetch returned, and the final
`kv.UpdateMetadata` CAS commits. Any uid/gid field rejects the whole call
with ENOTSUP before anything is mutated; then the size (truncate), mode
(type bits preserved), mtime and atime fields are applied; stale chunks
are deleted only after the CAS. -/
def Setattr (st : FsState) (meta0 : InodeMeta) (att : SetAttrIn) :
    Except Errno (FsState × InodeMeta) :=
  if att.uid.isSome ∨ att.gid.isSome then .error .enotsup
  else
    (att.size.elim (Except.ok (st, meta0, ([] : List Nat))) fun sz =>
        truncStep st meta0 sz).bind fun s =>
      let meta2 := att.mode.elim s.2.1 fun m =>
        { s.2.1 with mode := (s.2.1.mode &&& S_IFMT) ||| (m &&& notS_IFMT) }
      let meta3 := att.mtime.elim meta2 fun t => { meta2 with mtimeNs := t }
      let meta4 := att.atime.elim meta3 fun t => { meta3 with atimeNs := t }
      .ok (applyStale s.1 s.2.2, meta4)

/-! ## Directory unlink (`dirnode.go`) -/

/-- Outcome oracle for the backend calls Unlink makes: which metadata
records exist, and whether each conditional update / delete call
succeeds. Chunk- and metadata-delete outcomes are listed even though
Unlink ignores them (it only logs their failures). -/
structure KVOracle where
  metadata : Nat → Option InodeMeta
  casOk : Nat → Bool
  deleteChunkOk : Nat → Bool
  deleteMetaOk : Nat → Bool

/-- Child-entry scan of Unlink (dirnode.go): collects the entries whose
name differs, and remembers whether a matching entry was seen and the
inode of the last match. -/
def unlinkScan (name : String) (entries : List (String × Nat)) :
    List (String × Nat) × Bool × Nat :=
  entries.foldl
    (fun acc c =>
      if c.1 = name then (acc.1, true, c.2) else (acc.1 ++ [c], acc.2.1, acc.2.2))
    ([], false, 0)

/-- BangDirNode.Unlink of dirnode.go, at the errno level: fetch the
parent (failure is EIO), locate the child (missing is ENOENT), CAS the
parent without the entry (failure is EIO), fetch the child record
(failure is EIO), then delete the child's chunks and its metadata while
ignoring those calls' results, and return 0. -/
def Unlink (kv : KVOracle) (parentInum : Nat) (name : String) : Errno :=
  match kv.metadata parentInum with
  | none => .eio
  | some dirMeta =>
    let scan := unlinkScan name dirMeta.childEntries
    if scan.2.1 = false then .enoent
    else if kv.casOk parentInum = false then .eio
    else
      match kv.metadata scan.2.2 with
      | none => .eio
      | some _fileMeta => .ok

/-! ## Freshly created file (`dirnode.go`, Create) -/

/-- Record BangDirNode.Create stores for a new regular file: the given
mode OR'd with `S_IFREG`, all three timestamps equal, nlink 1, an empty
chunk list, and the proto default size 0. -/
def freshFileMeta (name : String) (parentInum mode uid gid : Nat) (now : Int) : InodeMeta :=
  { name := name, parentInode := parentInum, mode := mode ||| S_IFREG,
    uid := uid, gid := gid, ctimeNs := now, mtimeNs := now, atimeNs := now,
    chunks := [], nlink := 1 }

/-! ## Canonical chunking and representation predicates

The chunk invariants of the spec (§3) say a file's bytes are carried by
chunks of exactly `C` bytes except for a shorter final chunk. We express
this by relating the chunk list to the canonical chunking of the file's
logical content. -/

/-- Fuel-indexed canonical chunking: split a byte list into consecutive
pieces of `C` bytes (the last piece may be shorter). -/
def chunkPiecesF (C : Nat) : Nat → List Nat → List (List Nat)
  | 0, _ => []
  | _ + 1, [] => []
  | fuel + 1, x :: xs =>
    if C = 0 then []
    else (x :: xs).take C :: chunkPiecesF C fuel ((x :: xs).drop C)

/-- Canonical chunking of `content` into pieces of `C` bytes. -/
def chunkPieces (C : Nat) (content : List Nat) : List (List Nat) :=
  chunkPiecesF C content.length content

/-- Splicing `data` into `content` at position `pos`: the effect of an
in-place overwrite that extends the list when it runs past the end. -/
def splice (content : List Nat) (pos : Nat) (data : List Nat) : List Nat :=
  content.take pos ++ data ++ content.drop (pos + data.length)

/-- Sum of the recorded chunk sizes of a chunk list. -/
def sumSizes (chks : List ChunkRef) : Nat := (chks.map (·.size)).sum

/-- Representation of a piece list by a chunk list in a store: the chunk
refs line up one-to-one with the pieces, each ref's recorded size is its
piece's length, the store holds the piece's bytes under the ref's key,
and every key is below the id generator's counter (so freshly issued
keys never collide with listed ones). -/
def RepChunks (st : FsState) : List ChunkRef → List (List Nat) → Prop
  | [], [] => True
  | r :: rs, p :: ps =>
    st.chunkStore r.hash = some p ∧ r.size = p.length ∧ r.hash < st.nextKey ∧
      RepChunks st rs ps
  | _, _ => False

/-- Representation of a file's committed record by the store: the chunk
list carries the canonical chunking of `content`, the recorded size is
the content length, and the chunk keys are pairwise distinct. -/
structure Represents (C : Nat) (st : FsState) (meta : InodeMeta) (content : List Nat) :
    Prop where
  rep : RepChunks st meta.chunks (chunkPieces C content)
  size_eq : meta.size = content.length
  nodup : (meta.chunks.map (·.hash)).Nodup

/-- The chunk invariants of the spec (§3), stated on a committed record:
the size is the sum of the chunk sizes, every chunk except possibly the
last is exactly `C` bytes, the last chunk is at most `C` bytes, and an
empty file has no chunks. -/
def ChunkInv (C : Nat) (meta : InodeMeta) : Prop :=
  meta.size = sumSizes meta.chunks ∧
  (∀ i r, meta.chunks[i]? = some r → i + 1 < meta.chunks.length → r.size = C) ∧
  (∀ r, meta.chunks.getLast? = some r → r.size ≤ C) ∧
  (meta.size = 0 → meta.chunks = [])

/-- Committed (store, record) pairs reachable from a freshly created
regular file (`BangDirNode.Create`) through successful `BangFH.Write`
calls with non-empty data and successful `BangFileNode.Setattr` calls
(which cover truncation). -/
inductive Reach (C : Nat) : FsState → InodeMeta → Prop where
  | create (st : FsState) (name : String) (parentInum mode uid gid : Nat) (now : Int) :
      Reach C st (freshFileMeta name parentInum mode uid gid now)
  | write (st : FsState) (meta : InodeMeta) (flags : Nat) (data : List Nat) (off : Nat)
      (st' : FsState) (meta' : InodeMeta) :
      Reach C st meta → data ≠ [] →
      Write C flags st meta data off = some (st', meta') → Reach C st' meta'
  | setattr (st : FsState) (meta : InodeMeta) (att : SetAttrIn)
      (st' : FsState) (meta' : InodeMeta) :
      Reach C st meta → Setattr st meta att = .ok (st', meta') → Reach C st' meta'

/-! ## Concrete states used to instantiate the theorems -/

/-- An empty chunks bucket with the id generator at 0. -/
def exSt0 : FsState := ⟨fun _ => none, 0⟩

/-- An empty regular file record. -/
def exMeta0 : InodeMeta := { mode := S_IFREG, size := 0, chunks := [] }

/-- A bucket holding one 2-byte chunk under key 0, id generator at 1. -/
def exSt1 : FsState := ⟨fun k => if k = 0 then some [9, 8] else none, 1⟩

/-- A 2-byte regular file carried by the single chunk of `exSt1`. -/
def exMeta1 : InodeMeta := { mode := S_IFREG, size := 2, chunks := [⟨0, 2⟩] }

/-- A bucket holding a 4-byte chunk (key 0) and a 2-byte chunk (key 1),
id generator at 2. -/
def exSt4 : FsState :=
  ⟨fun k => if k = 0 then some [1, 2, 3, 4] else if k = 1 then some [5, 6] else none, 2⟩

/-- A 6-byte regular file carried by the two chunks of `exSt4`
(chunk size `C = 4`). -/
def exMeta4 : InodeMeta := { mode := S_IFREG, size := 6, chunks := [⟨0, 4⟩, ⟨1, 2⟩] }

/-- Backend oracle for Unlink: inode 1 is a directory with one child
entry `"f" ↦ 5`, the child record is missing, the parent CAS succeeds,
every delete call fails. -/
def exKV : KVOracle :=
  ⟨fun k => if k = 1 then some { childEntries := [("f", 5)] } else none,
   fun _ => true, fun _ => false, fun _ => false⟩

/-- Backend oracle for Unlink: as `exKV` but the child record (inode 5)
exists; every delete call still fails. -/
def exKV2 : KVOracle :=
  ⟨fun k =>
      if k = 1 then some { childEntries := [("f", 5)] }
      else if k = 5 then some exMeta1 else none,
   fun _ => true, fun _ => false, fun _ => false⟩

theorem chunkPiecesF_congr (C : Nat) :
    ∀ f1 f2 (content : List Nat), content.length ≤ f1 → content.length ≤ f2 →
      chunkPiecesF C f1 content = chunkPiecesF C f2 content := by
  intro f1
  induction f1 with
  | zero =>
    intro f2 content h1 _
    have : content = [] := List.length_eq_zero.mp (Nat.le_zero.mp h1)
    subst this
    cases f2 <;> simp [chunkPiecesF]
  | succ f1 ih =>
    intro f2 content h1 h2
    match f2, content with
    | 0, content =>
      have : content = [] := List.length_eq_zero.mp (Nat.le_zero.mp h2)
      subst this
      simp [chunkPiecesF]
    | f2 + 1, [] => simp [chunkPiecesF]
    | f2 + 1, x :: xs =>
      simp only [chunkPiecesF]
      by_cases hc : C = 0
      · simp [hc]
      · have hC : 0 < C := Nat.pos_of_ne_zero hc
        have h1' : ((x :: xs).drop C).length ≤ f1 := by
          simp only [List.length_drop, List.length_cons]
          simp only [List.length_cons] at h1
          omega
        have h2' : ((x :: xs).drop C).length ≤ f2 := by
          simp only [List.length_drop, List.length_cons]
          simp only [List.length_cons] at h2
          omega
        rw [if_neg hc, if_neg hc, ih f2 _ h1' h2']

theorem chunkPieces_nil (C : Nat) : chunkPieces C [] = [] := rfl

/-- Unfolding law of the canonical chunking for positive `C`. -/
theorem chunkPieces_cons (C : Nat) (hC : 0 < C) (content : List Nat)
    (hne : content ≠ []) :
    chunkPieces C content = content.take C :: chunkPieces C (content.drop C) := by
  match content, hne with
  | x :: xs, _ =>
    have h0 : chunkPieces C (x :: xs) = chunkPiecesF C (xs.length + 1) (x :: xs) := rfl
    rw [h0]
    simp only [chunkPiecesF]
    rw [if_neg (by omega : ¬ C = 0)]
    congr 1
    unfold chunkPieces
    apply chunkPiecesF_congr
    · simp only [List.length_drop, List.length_cons]; omega
    · exact le_rfl

theorem chunkPieces_sum_aux (C : Nat) (hC : 0 < C) :
    ∀ n (content : List Nat), content.length ≤ n →
      ((chunkPieces C content).map List.length).sum = content.length := by
  intro n
  induction n with
  | zero =>
    intro content h
    have : content = [] := List.length_eq_zero.mp (Nat.le_zero.mp h)
    subst this; simp [chunkPieces_nil]
  | succ n ih =>
    intro content h
    by_cases hne : content = []
    · subst hne; simp [chunkPieces_nil]
    · have hlen : 0 < content.length := List.length_pos.mpr hne
      rw [chunkPieces_cons C hC content hne]
      simp only [List.map_cons, List.sum_cons, List.length_take]
      rw [ih (content.drop C) (by simp only [List.length_drop]; omega)]
      simp only [List.length_drop]
      omega

/-- Sum of the canonical piece lengths is the content length. -/
theorem chunkPieces_sum (C : Nat) (hC : 0 < C) (content : List Nat) :
    ((chunkPieces C content).map List.length).sum = content.length :=
  chunkPieces_sum_aux C hC content.length content le_rfl

theorem chunkPieces_mem_aux (C : Nat) (hC : 0 < C) :
    ∀ n (content : List Nat), content.length ≤ n →
      ∀ p ∈ chunkPieces C content, 0 < p.length ∧ p.length ≤ C := by
  intro n
  induction n with
  | zero =>
    intro content h
    have : content = [] := List.length_eq_zero.mp (Nat.le_zero.mp h)
    subst this; simp [chunkPieces_nil]
  | succ n ih =>
    intro content h p hp
    by_cases hne : content = []
    · subst hne; simp [chunkPieces_nil] at hp
    · have hlen : 0 < content.length := List.length_pos.mpr hne
      rw [chunkPieces_cons C hC content hne] at hp
      rcases List.mem_cons.mp hp with h1 | h1
      · subst h1
        simp only [List.length_take]
        omega
      · exact ih (content.drop C) (by simp only [List.length_drop]; omega) p h1

/-- Every canonical piece is nonempty and at most `C` bytes. -/
theorem chunkPieces_mem (C : Nat) (hC : 0 < C) (content : List Nat) :
    ∀ p ∈ chunkPieces C content, 0 < p.length ∧ p.length ≤ C :=
  chunkPieces_mem_aux C hC content.length content le_rfl

theorem chunkPieces_full_aux (C : Nat) (hC : 0 < C) :
    ∀ n (content : List Nat), content.length ≤ n →
      ∀ i p, (chunkPieces C content)[i]? = some p →
        i + 1 < (chunkPieces C content).length → p.length = C := by
  intro n
  induction n with
  | zero =>
    intro content h
    have : content = [] := List.length_eq_zero.mp (Nat.le_zero.mp h)
    subst this; simp [chunkPieces_nil]
  | succ n ih =>
    intro content h i p hget hlt
    by_cases hne : content = []
    · subst hne; simp [chunkPieces_nil] at hget
    · have hlen : 0 < content.length := List.length_pos.mpr hne
      rw [chunkPieces_cons C hC content hne] at hget hlt
      match i with
      | 0 =>
        simp only [List.getElem?_cons_zero, Option.some.injEq] at hget
        subst hget
        simp only [List.length_cons] at hlt
        have hdrop : chunkPieces C (content.drop C) ≠ [] := by
          intro hc; rw [hc] at hlt; simp at hlt
        have : content.drop C ≠ [] := by
          intro hc; rw [hc, chunkPieces_nil] at hdrop; exact hdrop rfl
        have : C < content.length := by
          by_contra hcc
          exact this (List.drop_eq_nil_of_le (by omega))
        simp only [List.length_take]; omega
      | i + 1 =>
        simp only [List.getElem?_cons_succ] at hget
        simp only [List.length_cons] at hlt
        exact ih (content.drop C) (by simp only [List.length_drop]; omega) i p hget
          (by omega)

/-- Every canonical piece other than the last is exactly `C` bytes. -/
theorem chunkPieces_full (C : Nat) (hC : 0 < C) (content : List Nat) :
    ∀ i p, (chunkPieces C content)[i]? = some p →
      i + 1 < (chunkPieces C content).length → p.length = C :=
  chunkPieces_full_aux C hC content.length content le_rfl

theorem chunkPieces_len_le_aux (C : Nat) (hC : 0 < C) :
    ∀ n (content : List Nat), content.length ≤ n →
      content.length ≤ (chunkPieces C content).length * C := by
  intro n
  induction n with
  | zero =>
    intro content h
    have : content = [] := List.length_eq_zero.mp (Nat.le_zero.mp h)
    subst this; simp [chunkPieces_nil]
  | succ n ih =>
    intro content h
    by_cases hne : content = []
    · subst hne; simp [chunkPieces_nil]
    · have hlen : 0 < content.length := List.length_pos.mpr hne
      rw [chunkPieces_cons C hC content hne]
      have := ih (content.drop C) (by simp only [List.length_drop]; omega)
      simp only [List.length_drop] at this
      simp only [List.length_cons]
      calc content.length ≤ (content.length - C) + C := by omega
        _ ≤ (chunkPieces C (content.drop C)).length * C + C := by omega
        _ = ((chunkPieces C (content.drop C)).length + 1) * C := by ring

/-- Canonical pieces cover the content: `len ≤ count * C`. -/
theorem chunkPieces_len_le (C : Nat) (hC : 0 < C) (content : List Nat) :
    content.length ≤ (chunkPieces C content).length * C :=
  chunkPieces_len_le_aux C hC content.length content le_rfl

theorem chunkPieces_index_lt_aux (C : Nat) (hC : 0 < C) :
    ∀ n (content : List Nat), content.length ≤ n →
      ∀ i, i < (chunkPieces C content).length → i * C < content.length := by
  intro n
  induction n with
  | zero =>
    intro content h i hi
    have : content = [] := List.length_eq_zero.mp (Nat.le_zero.mp h)
    subst this
    rw [chunkPieces_nil] at hi
    simp at hi
  | succ n ih =>
    intro content h i hi
    by_cases hne : content = []
    · subst hne
      rw [chunkPieces_nil] at hi
      simp at hi
    · have hlen : 0 < content.length := List.length_pos.mpr hne
      rw [chunkPieces_cons C hC content hne] at hi
      simp only [List.length_cons] at hi
      match i with
      | 0 => omega
      | i + 1 =>
        have hih := ih (content.drop C) (by simp only [List.length_drop]; omega) i
          (by omega)
        simp only [List.length_drop] at hih
        calc (i + 1) * C = i * C + C := by ring
          _ < content.length := by omega

/-- A valid piece index starts strictly inside the content. -/
theorem chunkPieces_index_lt (C : Nat) (hC : 0 < C) (content : List Nat) :
    ∀ i, i < (chunkPieces C content).length → i * C < content.length :=
  chunkPieces_index_lt_aux C hC content.length content le_rfl

theorem chunkPieces_append_aux (C : Nat) (hC : 0 < C) :
    ∀ n (l1 l2 : List Nat), l1.length ≤ n → C ∣ l1.length →
      chunkPieces C (l1 ++ l2) = chunkPieces C l1 ++ chunkPieces C l2 := by
  intro n
  induction n with
  | zero =>
    intro l1 l2 h _
    have : l1 = [] := List.length_eq_zero.mp (Nat.le_zero.mp h)
    subst this; simp [chunkPieces_nil]
  | succ n ih =>
    intro l1 l2 h hdvd
    by_cases hne : l1 = []
    · subst hne; simp [chunkPieces_nil]
    · have hlen : 0 < l1.length := List.length_pos.mpr hne
      have hCle : C ≤ l1.length := Nat.le_of_dvd hlen hdvd
      by_cases hl2 : l2 = []
      · subst hl2; simp [chunkPieces_nil]
      · have hne2 : l1 ++ l2 ≠ [] := by simp [hne]
        rw [chunkPieces_cons C hC (l1 ++ l2) hne2, chunkPieces_cons C hC l1 hne]
        rw [List.take_append_of_le_length hCle, List.drop_append_of_le_length hCle]
        rw [List.cons_append]
        congr 1
        have hd : C ∣ (l1.drop C).length := by
          simp only [List.length_drop]
          exact (Nat.dvd_sub' hdvd dvd_rfl)
        exact ih (l1.drop C) l2 (by simp only [List.length_drop]; omega) hd

/-- Canonical chunking distributes over an append at a piece boundary. -/
theorem chunkPieces_append (C : Nat) (hC : 0 < C) (l1 l2 : List Nat)
    (hdvd : C ∣ l1.length) :
    chunkPieces C (l1 ++ l2) = chunkPieces C l1 ++ chunkPieces C l2 :=
  chunkPieces_append_aux C hC l1.length l1 l2 le_rfl hdvd

theorem chunkPieces_exact_aux (C : Nat) (hC : 0 < C) :
    ∀ n (l : List Nat), l.length ≤ n → C ∣ l.length →
      (chunkPieces C l).length * C = l.length := by
  intro n
  induction n with
  | zero =>
    intro l h _
    have : l = [] := List.length_eq_zero.mp (Nat.le_zero.mp h)
    subst this; simp [chunkPieces_nil]
  | succ n ih =>
    intro l h hdvd
    by_cases hne : l = []
    · subst hne; simp [chunkPieces_nil]
    · have hlen : 0 < l.length := List.length_pos.mpr hne
      have hCle : C ≤ l.length := Nat.le_of_dvd hlen hdvd
      rw [chunkPieces_cons C hC l hne]
      simp only [List.length_cons]
      have hd : C ∣ (l.drop C).length := by
        simp only [List.length_drop]
        exact Nat.dvd_sub' hdvd dvd_rfl
      have := ih (l.drop C) (by simp only [List.length_drop]; omega) hd
      simp only [List.length_drop] at this
      calc ((chunkPieces C (l.drop C)).length + 1) * C
          = (chunkPieces C (l.drop C)).length * C + C := by ring
        _ = l.length := by omega

/-- Content whose length is a multiple of `C` chunks into full pieces. -/
theorem chunkPieces_exact (C : Nat) (hC : 0 < C) (l : List Nat) (hdvd : C ∣ l.length) :
    (chunkPieces C l).length * C = l.length :=
  chunkPieces_exact_aux C hC l.length l le_rfl hdvd

/-- Nonempty content of at most `C` bytes is a single canonical piece. -/
theorem chunkPieces_singleton (C : Nat) (hC : 0 < C) (l : List Nat) (hne : l ≠ [])
    (hle : l.length ≤ C) : chunkPieces C l = [l] := by
  rw [chunkPieces_cons C hC l hne, List.take_of_length_le hle,
    List.drop_eq_nil_of_le hle, chunkPieces_nil]

theorem RepChunks_nil (st : FsState) : RepChunks st [] [] := trivial

theorem RepChunks_length (st : FsState) :
    ∀ chks ps, RepChunks st chks ps → chks.length = ps.length := by
  intro chks
  induction chks with
  | nil => intro ps h; cases ps with
    | nil => rfl
    | cons p ps => simp [RepChunks] at h
  | cons r rs ih =>
    intro ps h
    cases ps with
    | nil => simp [RepChunks] at h
    | cons p ps =>
      simp only [RepChunks] at h
      simp only [List.length_cons, ih ps h.2.2.2]

theorem RepChunks_append (st : FsState) :
    ∀ l1 p1 l2 p2, RepChunks st l1 p1 → RepChunks st l2 p2 →
      RepChunks st (l1 ++ l2) (p1 ++ p2) := by
  intro l1
  induction l1 with
  | nil =>
    intro p1 l2 p2 h1 h2
    cases p1 with
    | nil => simpa using h2
    | cons p ps => simp [RepChunks] at h1
  | cons r rs ih =>
    intro p1 l2 p2 h1 h2
    cases p1 with
    | nil => simp [RepChunks] at h1
    | cons p ps =>
      simp only [RepChunks] at h1
      simp only [List.cons_append, RepChunks]
      exact ⟨h1.1, h1.2.1, h1.2.2.1, ih ps l2 p2 h1.2.2.2 h2⟩

theorem RepChunks_split (st : FsState) :
    ∀ p1 chks p2, RepChunks st chks (p1 ++ p2) →
      ∃ l1 l2, chks = l1 ++ l2 ∧ l1.length = p1.length ∧
        RepChunks st l1 p1 ∧ RepChunks st l2 p2 := by
  intro p1
  induction p1 with
  | nil =>
    intro chks p2 h
    exact ⟨[], chks, by simp, by simp, trivial, by simpa using h⟩
  | cons p ps ih =>
    intro chks p2 h
    cases chks with
    | nil => simp [RepChunks] at h
    | cons r rs =>
      simp only [List.cons_append, RepChunks] at h
      obtain ⟨l1, l2, heq, hlen, h1, h2⟩ := ih rs p2 h.2.2.2
      exact ⟨r :: l1, l2, by simp [heq], by simp [hlen], ⟨h.1, h.2.1, h.2.2.1, h1⟩, h2⟩

theorem RepChunks_mono (st st' : FsState)
    (hstore : ∀ k, k < st.nextKey → st'.chunkStore k = st.chunkStore k)
    (hkey : st.nextKey ≤ st'.nextKey) :
    ∀ chks ps, RepChunks st chks ps → RepChunks st' chks ps := by
  intro chks
  induction chks with
  | nil => intro ps h; cases ps with
    | nil => trivial
    | cons p ps => simp [RepChunks] at h
  | cons r rs ih =>
    intro ps h
    cases ps with
    | nil => simp [RepChunks] at h
    | cons p ps =>
      simp only [RepChunks] at h ⊢
      exact ⟨(hstore r.hash h.2.2.1).trans h.1, h.2.1, lt_of_lt_of_le h.2.2.1 hkey,
        ih ps h.2.2.2⟩

theorem RepChunks_hash_lt (st : FsState) :
    ∀ chks ps, RepChunks st chks ps → ∀ r ∈ chks, r.hash < st.nextKey := by
  intro chks
  induction chks with
  | nil => intro ps _ r hr; simp at hr
  | cons c cs ih =>
    intro ps h r hr
    cases ps with
    | nil => simp [RepChunks] at h
    | cons p ps =>
      simp only [RepChunks] at h
      rcases List.mem_cons.mp hr with h1 | h1
      · subst h1; exact h.2.2.1
      · exact ih ps h.2.2.2 r h1

theorem RepChunks_sizes (st : FsState) :
    ∀ chks ps, RepChunks st chks ps → chks.map (·.size) = ps.map List.length := by
  intro chks
  induction chks with
  | nil => intro ps h; cases ps with
    | nil => rfl
    | cons p ps => simp [RepChunks] at h
  | cons r rs ih =>
    intro ps h
    cases ps with
    | nil => simp [RepChunks] at h
    | cons p ps =>
      simp only [RepChunks] at h
      simp only [List.map_cons, h.2.1, ih ps h.2.2.2]

theorem splice_nil (content : List Nat) (pos : Nat) : splice content pos [] = content := by
  simp [splice]

theorem splice_length (content : List Nat) (pos : Nat) (data : List Nat)
    (h : pos ≤ content.length) :
    (splice content pos data).length = max content.length (pos + data.length) := by
  simp only [splice, List.length_append, List.length_take, List.length_drop]
  omega

/-- Splicing the first `n` bytes and then the rest equals one splice. -/
theorem splice_splice (content : List Nat) (pos : Nat) (data : List Nat) (n : Nat)
    (hpos : pos ≤ content.length) (hn : n ≤ data.length) :
    splice (splice content pos (data.take n)) (pos + n) (data.drop n) =
      splice content pos data := by
  have h1 : (content.take pos).length = pos := List.length_take_of_le hpos
  have h2 : (data.take n).length = n := List.length_take_of_le hn
  simp only [splice, List.length_take, List.length_drop, min_eq_left hn,
    List.append_assoc]
  have e1 : (content.take pos ++ (data.take n ++ content.drop (pos + n))).take (pos + n)
      = content.take pos ++ data.take n := by
    rw [List.take_append_eq_append_take, h1]
    have c1 : (content.take pos).take (pos + n) = content.take pos :=
      List.take_of_length_le (by omega)
    have c2 : pos + n - pos = n := by omega
    rw [c1, c2, List.take_append_eq_append_take, h2]
    have c3 : (data.take n).take n = data.take n := List.take_of_length_le (by omega)
    have c4 : n - n = 0 := by omega
    rw [c3, c4, List.take_zero, List.append_nil]
  have e2 : (content.take pos ++ (data.take n ++ content.drop (pos + n))).drop
      (pos + data.length) = content.drop (pos + data.length) := by
    rw [List.drop_append_eq_append_drop, h1]
    have c1 : (content.take pos).drop (pos + data.length) = [] :=
      List.drop_eq_nil_of_le (by omega)
    have c2 : pos + data.length - pos = data.length := by omega
    rw [c1, c2, List.nil_append, List.drop_append_eq_append_drop, h2]
    have c3 : (data.take n).drop data.length = [] :=
      List.drop_eq_nil_of_le (by omega)
    rw [c3, List.nil_append, List.drop_drop]
    congr 1
    omega
  rw [show pos + n + (data.length - n) = pos + data.length from by omega, e1, e2,
    List.append_assoc]
  rw [← List.append_assoc (data.take n) (data.drop n), List.take_append_drop]

theorem RepChunks_nil_right (st : FsState) :
    ∀ chks, RepChunks st chks [] → chks = [] := by
  intro chks h
  cases chks with
  | nil => rfl
  | cons r rs => simp [RepChunks] at h

theorem getElem_opt_append_cons {α : Type} (l1 : List α) (c : α) (l2 : List α) :
    (l1 ++ c :: l2)[l1.length]? = some c := by
  induction l1 with
  | nil => simp
  | cons x xs ih => simpa using ih

theorem set_append_cons {α : Type} (l1 : List α) (c v : α) (l2 : List α) :
    (l1 ++ c :: l2).set l1.length v = l1 ++ v :: l2 := by
  induction l1 with
  | nil => rfl
  | cons x xs ih => simp only [List.cons_append, List.length_cons, List.set_cons_succ, ih]

theorem nodup_set_fresh : ∀ (l : List Nat) (i v : Nat),
    (∀ x ∈ l, x < v) → l.Nodup → (l.set i v).Nodup := by
  intro l
  induction l with
  | nil => intro i v _ _; simp
  | cons x xs ih =>
    intro i v hlt hnd
    simp only [List.nodup_cons] at hnd
    cases i with
    | zero =>
      simp only [List.set_cons_zero, List.nodup_cons]
      refine ⟨?_, hnd.2⟩
      intro hv
      have := hlt v (List.mem_cons_of_mem x hv)
      omega
    | succ i =>
      simp only [List.set_cons_succ, List.nodup_cons]
      refine ⟨?_, ih i v (fun y hy => hlt y (List.mem_cons_of_mem x hy)) hnd.2⟩
      intro hx
      rcases List.mem_or_eq_of_mem_set hx with h | h
      · exact hnd.1 h
      · subst h
        have := hlt x (List.mem_cons_self x xs)
        omega

theorem putChunk_at (st : FsState) (key : Nat) (data : List Nat) :
    (putChunk st key data).chunkStore key = some data := by
  simp [putChunk]

theorem putChunk_ne (st : FsState) (key : Nat) (data : List Nat) (k : Nat)
    (h : k ≠ key) : (putChunk st key data).chunkStore k = st.chunkStore k := by
  simp [putChunk, h]

/-- Simulation of the `writeAt` loop: on a store representing `content`
canonically chunked, the loop succeeds and yields a store and chunk list
that canonically represent the content with `data` spliced in at `pos`,
issuing only fresh keys and never touching previously issued ones. -/
theorem writeAtF_sim (C : Nat) (hC : 0 < C) :
    ∀ fuel (data : List Nat), data.length < fuel →
    ∀ st chks content pos,
      RepChunks st chks (chunkPieces C content) →
      (chks.map (·.hash)).Nodup →
      pos ≤ content.length →
      ∃ st' chks',
        writeAtF C fuel st chks data pos = some (st', chks') ∧
        RepChunks st' chks' (chunkPieces C (splice content pos data)) ∧
        (chks'.map (·.hash)).Nodup ∧
        st.nextKey ≤ st'.nextKey ∧
        (∀ k, k < st.nextKey → st'.chunkStore k = st.chunkStore k) := by
  intro fuel
  induction fuel with
  | zero => intro data h st chks content pos _ _ _; omega
  | succ fuel ih =>
    intro data hfuel st chks content pos hrep hnd hpos
    by_cases hde : data = []
    · subst hde
      refine ⟨st, chks, by simp [writeAtF], ?_, hnd, le_rfl, fun k _ => rfl⟩
      rw [splice_nil]
      exact hrep
    have hdl : 0 < data.length := List.length_pos.mpr hde
    have hoc_lt : pos % C < C := Nat.mod_lt pos hC
    have hprod : (pos / C) * C + pos % C = pos := by
      rw [mul_comm]; exact Nat.div_add_mod pos C
    by_cases hci : pos / C < chks.length
    · -- overwrite within an existing chunk
      have hnp : chks.length = (chunkPieces C content).length :=
        RepChunks_length st chks _ hrep
      have hciP : pos / C < (chunkPieces C content).length := by omega
      have hstart : (pos / C) * C < content.length :=
        chunkPieces_index_lt C hC content _ hciP
      set A := content.take ((pos / C) * C) with hA
      set rest := content.drop ((pos / C) * C) with hrest
      set existing := rest.take C with hex
      have hA_len : A.length = (pos / C) * C :=
        List.length_take_of_le (le_of_lt hstart)
      have hdvdA : C ∣ A.length := by
        rw [hA_len]; exact ⟨pos / C, mul_comm _ _⟩
      have hrest_len : rest.length = content.length - (pos / C) * C := by
        rw [hrest]; exact List.length_drop _ _
      have hrest_ne : rest ≠ [] := by
        intro h0
        rw [h0] at hrest_len
        simp at hrest_len
        omega
      have hcontent_eq : content = A ++ rest := (List.take_append_drop _ _).symm
      have hpieces : chunkPieces C content =
          chunkPieces C A ++ (existing :: chunkPieces C (rest.drop C)) := by
        conv_lhs => rw [hcontent_eq]
        rw [chunkPieces_append C hC _ _ hdvdA, chunkPieces_cons C hC _ hrest_ne]
      have hAcount : (chunkPieces C A).length = pos / C := by
        have hx := chunkPieces_exact C hC _ hdvdA
        rw [hA_len] at hx
        exact Nat.eq_of_mul_eq_mul_right hC hx
      have hrepP := hrep
      rw [hpieces] at hrepP
      obtain ⟨l1, l2, hchks, hl1len, hrep1, hrep2⟩ :=
        RepChunks_split st _ chks _ hrepP
      cases l2 with
      | nil => simp [RepChunks] at hrep2
      | cons cr l2' =>
      simp only [RepChunks] at hrep2
      obtain ⟨hcr_store, hcr_size, hcr_lt, hrep2'⟩ := hrep2
      have hl1len' : l1.length = pos / C := by rw [hl1len, hAcount]
      have hget : chks[pos / C]? = some cr := by
        rw [hchks, ← hl1len']
        exact getElem_opt_append_cons l1 cr l2'
      have hel_len : existing.length = min C rest.length := by
        rw [hex]; exact List.length_take _ _
      have hoc_le : pos % C ≤ existing.length := by
        rw [hel_len]; omega
      have hrest_split : rest = existing ++ rest.drop C := by
        rw [hex]; exact (List.take_append_drop C rest).symm
      -- the loop step
      simp only [writeAtF]
      rw [if_neg (show ¬ data.isEmpty = true by simp [hde]), if_pos hci, hget]
      simp only [Option.some_bind]
      rw [hcr_store]
      simp only [Option.some_bind]
      set grown :=
        (if pos % C + data.length > existing.length ∧ existing.length < C then
          existing ++ List.replicate (min C (pos % C + data.length) - existing.length) 0
        else existing) with hgrown
      -- facts about the grown buffer, by cases on the growth condition
      have hgrow_len : grown.length =
          if pos % C + data.length > existing.length ∧ existing.length < C then
            min C (pos % C + data.length)
          else existing.length := by
        rw [hgrown]
        by_cases hg : pos % C + data.length > existing.length ∧ existing.length < C
        · rw [if_pos hg, if_pos hg]
          simp only [List.length_append, List.length_replicate]
          omega
        · rw [if_neg hg, if_neg hg]
      have hgrow_gt : pos % C < grown.length := by
        rw [hgrow_len]
        by_cases hg : pos % C + data.length > existing.length ∧ existing.length < C
        · rw [if_pos hg]; omega
        · rw [if_neg hg]
          rcases not_and_or.mp hg with h | h
          · omega
          · omega
      have hgrow_le : grown.length ≤ C := by
        rw [hgrow_len]
        by_cases hg : pos % C + data.length > existing.length ∧ existing.length < C
        · rw [if_pos hg]; omega
        · rw [if_neg hg]; omega
      have hgrow_take : grown.take (pos % C) = existing.take (pos % C) := by
        rw [hgrown]
        by_cases hg : pos % C + data.length > existing.length ∧ existing.length < C
        · rw [if_pos hg]; exact List.take_append_of_le_length hoc_le
        · rw [if_neg hg]
      set n := min (grown.length - pos % C) data.length with hn
      have hn_pos : 0 < n := by rw [hn]; omega
      have hn_le : n ≤ data.length := by rw [hn]; omega
      have hocn_le : pos % C + n ≤ grown.length := by rw [hn]; omega
      rw [if_neg (by omega : ¬ n = 0)]
      set newBytes := grown.take (pos % C) ++ data.take n ++ grown.drop (pos % C + n)
        with hnb
      have hnb_len : newBytes.length = grown.length := by
        rw [hnb]
        simp only [List.length_append, List.length_take, List.length_drop]
        omega
      have hnb_ne : newBytes ≠ [] := by
        intro h0
        have h1 : newBytes.length = 0 := by rw [h0]; rfl
        rw [hnb_len] at h1
        omega
      have hnb_le : newBytes.length ≤ C := by rw [hnb_len]; exact hgrow_le
      -- the spliced content decomposes around the rewritten chunk
      have htp : content.take pos = A ++ grown.take (pos % C) := by
        rw [hgrow_take]
        conv_lhs => rw [hcontent_eq]
        rw [List.take_append_eq_append_take]
        congr 1
        · exact List.take_of_length_le (by omega)
        · rw [hA_len, show pos - (pos / C) * C = pos % C from by omega, hex,
            List.take_take, min_eq_left (le_of_lt hoc_lt)]
      have hdropA : content.drop (pos + n) = rest.drop (pos % C + n) := by
        conv_lhs => rw [hcontent_eq]
        rw [List.drop_append_eq_append_drop,
          List.drop_eq_nil_of_le (show A.length ≤ pos + n by omega), List.nil_append,
          hA_len, show pos + n - (pos / C) * C = pos % C + n from by omega]
      have hdropB : content.drop (pos + n) = grown.drop (pos % C + n) ++ rest.drop C := by
        rw [hdropA]
        by_cases hg : pos % C + data.length > existing.length ∧ existing.length < C
        · -- growth: the chunk was the short last one, everything past it is empty
          have hel_small : existing.length = rest.length := by
            rw [hel_len]; omega
          have hglA2 : grown.length = min C (pos % C + data.length) := by
            rw [hgrow_len, if_pos hg]
          have h1 : rest.drop (pos % C + n) = [] := by
            apply List.drop_eq_nil_of_le
            rw [hn]
            omega
          have h2 : grown.drop (pos % C + n) = [] := by
            apply List.drop_eq_nil_of_le
            rw [hn]
            omega
          have h3 : rest.drop C = [] := by
            apply List.drop_eq_nil_of_le
            omega
          rw [h1, h2, h3]
          rfl
        · have hge : grown = existing := by rw [hgrown, if_neg hg]
          have hocn_el : pos % C + n ≤ existing.length := by
            rw [hge] at hocn_le; exact hocn_le
          conv_lhs => rw [hrest_split]
          rw [List.drop_append_of_le_length hocn_el, hge]
      have hbound : grown.length = C ∨ rest.drop C = [] := by
        by_cases hg : pos % C + data.length > existing.length ∧ existing.length < C
        · rw [hgrow_len, if_pos hg]
          by_cases hcge : C ≤ pos % C + data.length
          · left; omega
          · right
            apply List.drop_eq_nil_of_le
            omega
        · rw [hgrow_len, if_neg hg]
          rw [hel_len]
          by_cases hcge : C ≤ rest.length
          · left; omega
          · right
            apply List.drop_eq_nil_of_le
            omega
      have hcontent1 : splice content pos (data.take n) =
          A ++ newBytes ++ rest.drop C := by
        simp only [splice]
        rw [List.length_take_of_le hn_le, htp, hdropB, hnb]
        simp only [List.append_assoc]
      have hpieces1 : chunkPieces C (splice content pos (data.take n)) =
          chunkPieces C A ++ (newBytes :: chunkPieces C (rest.drop C)) := by
        rw [hcontent1, List.append_assoc, chunkPieces_append C hC A _ hdvdA]
        congr 1
        rcases hbound with hfull | hnil
        · have hfull' : newBytes.length = C := by omega
          rw [chunkPieces_cons C hC _ (by simp [hnb_ne])]
          congr 1
          · rw [← hfull']; exact List.take_left _ _
          · congr 1
            rw [← hfull']; exact List.drop_left _ _
        · rw [hnil, List.append_nil, chunkPieces_nil,
            chunkPieces_singleton C hC newBytes hnb_ne hnb_le]
      -- the new store and chunk list represent the spliced content
      set stNew := putChunk { st with nextKey := st.nextKey + 1 } st.nextKey newBytes
        with hstNew
      set chksNew := chks.set (pos / C) ⟨st.nextKey, newBytes.length⟩ with hchksNew
      have hnkNew : stNew.nextKey = st.nextKey + 1 := rfl
      have hstableNew : ∀ k, k < st.nextKey → stNew.chunkStore k = st.chunkStore k := by
        intro k hk
        rw [hstNew]
        exact putChunk_ne _ _ _ k (by omega)
      have hchksNew_eq : chksNew = l1 ++ ⟨st.nextKey, newBytes.length⟩ :: l2' := by
        rw [hchksNew, hchks, ← hl1len']
        exact set_append_cons l1 cr _ l2'
      have hrepNew : RepChunks stNew chksNew
          (chunkPieces C A ++ (newBytes :: chunkPieces C (rest.drop C))) := by
        rw [hchksNew_eq]
        apply RepChunks_append
        · exact RepChunks_mono st stNew hstableNew (by omega) _ _ hrep1
        · show RepChunks stNew (⟨st.nextKey, newBytes.length⟩ :: l2')
            (newBytes :: chunkPieces C (rest.drop C))
          refine ⟨?_, rfl, ?_, ?_⟩
          · rw [hstNew]; exact putChunk_at _ _ _
          · show st.nextKey < stNew.nextKey
            rw [hnkNew]
            omega
          · exact RepChunks_mono st stNew hstableNew (by omega) _ _ hrep2'
      have hndNew : (chksNew.map (·.hash)).Nodup := by
        rw [hchksNew, List.map_set]
        apply nodup_set_fresh _ _ _ ?_ hnd
        intro x hx
        obtain ⟨r, hr, hr2⟩ := List.mem_map.mp hx
        rw [← hr2]
        exact RepChunks_hash_lt st chks _ hrep r hr
      -- apply the induction hypothesis to the remaining bytes
      have hdrop_lt : (data.drop n).length < fuel := by
        simp only [List.length_drop]
        omega
      have hpos1 : pos + n ≤ (splice content pos (data.take n)).length := by
        rw [hcontent1]
        simp only [List.length_append]
        omega
      obtain ⟨st2, chks2, heval, hrep2f, hnd2, hk2, hs2⟩ :=
        ih (data.drop n) hdrop_lt stNew chksNew (splice content pos (data.take n))
          (pos + n) (by rw [hpieces1]; exact hrepNew) hndNew hpos1
      rw [splice_splice content pos data n hpos hn_le] at hrep2f
      refine ⟨st2, chks2, heval, hrep2f, hnd2, by omega, ?_⟩
      intro k hk
      rw [hs2 k (by omega), hstableNew k hk]
    · -- past the last chunk: append
      have hnp : chks.length = (chunkPieces C content).length :=
        RepChunks_length st chks _ hrep
      have hciP : (chunkPieces C content).length ≤ pos / C := by omega
      have hlenle : content.length ≤ (chunkPieces C content).length * C :=
        chunkPieces_len_le C hC content
      have hmul : (chunkPieces C content).length * C ≤ (pos / C) * C :=
        Nat.mul_le_mul_right C hciP
      have hpos_eq : pos = content.length := by omega
      have hdvd : C ∣ content.length := by
        refine ⟨pos / C, ?_⟩
        rw [mul_comm]
        omega
      simp only [writeAtF]
      rw [if_neg (show ¬ data.isEmpty = true by simp [hde]), if_neg hci]
      set n := min data.length C with hn
      have hn_pos : 0 < n := by rw [hn]; omega
      have hn_le : n ≤ data.length := by rw [hn]; omega
      rw [if_neg (by omega : ¬ n = 0)]
      have htake_len : (data.take n).length = n := List.length_take_of_le hn_le
      have hsplice : splice content pos (data.take n) = content ++ data.take n := by
        simp only [splice]
        rw [htake_len, List.take_of_length_le (show content.length ≤ pos by omega),
          List.drop_eq_nil_of_le (show content.length ≤ pos + n by omega),
          List.append_nil]
      have hpieces1 : chunkPieces C (splice content pos (data.take n)) =
          chunkPieces C content ++ [data.take n] := by
        rw [hsplice, chunkPieces_append C hC content _ hdvd,
          chunkPieces_singleton C hC (data.take n)
            (by intro h0; rw [h0] at htake_len; simp at htake_len; omega)
            (by rw [htake_len]; omega)]
      set stNew := putChunk { st with nextKey := st.nextKey + 1 } st.nextKey
        (data.take n) with hstNew
      set chksNew := chks ++ [⟨st.nextKey, n⟩] with hchksNew
      have hnkNew : stNew.nextKey = st.nextKey + 1 := rfl
      have hstableNew : ∀ k, k < st.nextKey → stNew.chunkStore k = st.chunkStore k := by
        intro k hk
        rw [hstNew]
        exact putChunk_ne _ _ _ k (by omega)
      have hrepNew : RepChunks stNew chksNew
          (chunkPieces C content ++ [data.take n]) := by
        rw [hchksNew]
        apply RepChunks_append
        · exact RepChunks_mono st stNew hstableNew (by omega) _ _ hrep
        · simp only [RepChunks]
          refine ⟨?_, htake_len.symm, by omega, trivial⟩
          rw [hstNew]; exact putChunk_at _ _ _
      have hndNew : (chksNew.map (·.hash)).Nodup := by
        rw [hchksNew, List.map_append]
        apply List.Nodup.append hnd (by simp)
        intro x hx hx2
        simp at hx2
        obtain ⟨r, hr, hr2⟩ := List.mem_map.mp hx
        have := RepChunks_hash_lt st chks _ hrep r hr
        omega
      have hdrop_lt : (data.drop n).length < fuel := by
        simp only [List.length_drop]
        omega
      have hpos1 : pos + n ≤ (splice content pos (data.take n)).length := by
        rw [hsplice]
        simp only [List.length_append]
        omega
      obtain ⟨st2, chks2, heval, hrep2f, hnd2, hk2, hs2⟩ :=
        ih (data.drop n) hdrop_lt stNew chksNew (splice content pos (data.take n))
          (pos + n) (by rw [hpieces1]; exact hrepNew) hndNew hpos1
      rw [splice_splice content pos data n hpos hn_le] at hrep2f
      refine ⟨st2, chks2, heval, hrep2f, hnd2, by omega, ?_⟩
      intro k hk
      rw [hs2 k (by omega), hstableNew k hk]

/-- Simulation of `writeAt` itself: the fuel `data.length + 1` always
suffices because each loop iteration consumes at least one byte. -/
theorem writeAt_sim (C : Nat) (hC : 0 < C) (st : FsState) (chks : List ChunkRef)
    (content data : List Nat) (pos : Nat)
    (hrep : RepChunks st chks (chunkPieces C content))
    (hnd : (chks.map (·.hash)).Nodup) (hpos : pos ≤ content.length) :
    ∃ st' chks',
      writeAt C st chks data pos = some (st', chks') ∧
      RepChunks st' chks' (chunkPieces C (splice content pos data)) ∧
      (chks'.map (·.hash)).Nodup ∧
      st.nextKey ≤ st'.nextKey ∧
      (∀ k, k < st.nextKey → st'.chunkStore k = st.chunkStore k) :=
  writeAtF_sim C hC (data.length + 1) data (by omega) st chks content pos hrep hnd hpos

theorem splice_at_end (content data : List Nat) :
    splice content content.length data = content ++ data := by
  simp only [splice]
  rw [List.take_of_length_le le_rfl, List.drop_eq_nil_of_le (by omega),
    List.append_nil]

/-- Correctness of `BangFH.Write` for non-empty data: the committed
record's size is `max (old size) (off' + len)` where `off'` is the
append-adjusted offset, and the committed chunks carry the old content
zero-padded up to `off'` with `data` spliced in at `off'`. -/
theorem Write_sim (C flags : Nat) (hC : 0 < C) (st : FsState) (meta : InodeMeta)
    (content data : List Nat) (off : Nat)
    (hrep : Represents C st meta content) (hne : data ≠ []) :
    ∃ st' meta',
      Write C flags st meta data off = some (st', meta') ∧
      meta'.size =
        max meta.size ((if flags &&& O_APPEND ≠ 0 then meta.size else off) + data.length) ∧
      Represents C st' meta'
        (splice
          (content ++ List.replicate
            ((if flags &&& O_APPEND ≠ 0 then meta.size else off) - content.length) 0)
          (if flags &&& O_APPEND ≠ 0 then meta.size else off) data) ∧
      meta'.name = meta.name ∧ meta'.mode = meta.mode ∧
      st.nextKey ≤ st'.nextKey ∧
      (∀ k, k < st.nextKey → st'.chunkStore k = st.chunkStore k) := by
  obtain ⟨hrepc, hsize, hnd⟩ := hrep
  have hdl : 0 < data.length := List.length_pos.mpr hne
  set off' := if flags &&& O_APPEND ≠ 0 then meta.size else off with hoff
  by_cases hgap : off' > meta.size
  · -- zero-fill the gap first
    obtain ⟨st1, chks1, he1, hrep1, hnd1, hk1, hs1⟩ :=
      writeAt_sim C hC st meta.chunks content (List.replicate (off' - meta.size) 0)
        meta.size hrepc hnd (by omega)
    have hc1 : splice content meta.size (List.replicate (off' - meta.size) 0) =
        content ++ List.replicate (off' - content.length) 0 := by
      rw [hsize, splice_at_end]
    have hlen1 : (content ++ List.replicate (off' - content.length) 0).length = off' := by
      simp only [List.length_append, List.length_replicate]
      omega
    rw [hc1] at hrep1
    obtain ⟨st2, chks2, he2, hrep2, hnd2, hk2, hs2⟩ :=
      writeAt_sim C hC st1 chks1 (content ++ List.replicate (off' - content.length) 0)
        data off' hrep1 hnd1 (by omega)
    refine ⟨st2, { meta with chunks := chks2, size := if off' + data.length > off' then off' + data.length else meta.size }, ?_, ?_, ?_, rfl, rfl, by omega, ?_⟩
    · simp only [Write, ← hoff]
      rw [if_pos hgap, he1]
      simp only [Option.some_bind]
      rw [he2]
      simp only [Option.some_bind]
      rw [if_pos hgap]
    · show (if off' + data.length > off' then off' + data.length else meta.size) =
        max meta.size (off' + data.length)
      rw [if_pos (by omega)]
      omega
    · refine ⟨hrep2, ?_, hnd2⟩
      show (if off' + data.length > off' then off' + data.length else meta.size) =
        (splice (content ++ List.replicate (off' - content.length) 0) off' data).length
      rw [if_pos (by omega), splice_length _ _ _ (by omega), hlen1]
      omega
    · intro k hk
      rw [hs2 k (by omega), hs1 k hk]
  · -- no gap
    have hrep0 : (content ++ List.replicate (off' - content.length) 0) = content := by
      rw [show off' - content.length = 0 from by omega, List.replicate_zero,
        List.append_nil]
    obtain ⟨st2, chks2, he2, hrep2, hnd2, hk2, hs2⟩ :=
      writeAt_sim C hC st meta.chunks content data off' hrepc hnd (by omega)
    refine ⟨st2, { meta with chunks := chks2, size := if off' + data.length > meta.size then off' + data.length else meta.size }, ?_, ?_, ?_, rfl, rfl, by omega, ?_⟩
    · simp only [Write, ← hoff]
      rw [if_neg hgap]
      simp only [Option.some_bind]
      rw [he2]
      simp only [Option.some_bind]
      rw [if_neg hgap]
    · show (if off' + data.length > meta.size then off' + data.length else meta.size) =
        max meta.size (off' + data.length)
      split <;> omega
    · rw [hrep0]
      refine ⟨hrep2, ?_, hnd2⟩
      show (if off' + data.length > meta.size then off' + data.length else meta.size) =
        (splice content off' data).length
      rw [splice_length _ _ _ (by omega)]
      split <;> omega
    · intro k hk
      exact hs2 k hk

theorem chunkPieces_flatten_aux (C : Nat) (hC : 0 < C) :
    ∀ n (content : List Nat), content.length ≤ n →
      (chunkPieces C content).flatten = content := by
  intro n
  induction n with
  | zero =>
    intro content h
    have : content = [] := List.length_eq_zero.mp (Nat.le_zero.mp h)
    subst this; simp [chunkPieces_nil]
  | succ n ih =>
    intro content h
    by_cases hne : content = []
    · subst hne; simp [chunkPieces_nil]
    · have hlen : 0 < content.length := List.length_pos.mpr hne
      rw [chunkPieces_cons C hC content hne]
      simp only [List.flatten_cons]
      rw [ih (content.drop C) (by simp only [List.length_drop]; omega)]
      exact List.take_append_drop C content

/-- The canonical pieces concatenate back to the content. -/
theorem chunkPieces_flatten (C : Nat) (hC : 0 < C) (content : List Nat) :
    (chunkPieces C content).flatten = content :=
  chunkPieces_flatten_aux C hC content.length content le_rfl

/-- Correctness of the chunk-walking loop of Read: starting at cumulative
offset `co` with chunks representing `pieces`, the loop returns exactly
the window `[max off co, endd)` of the represented bytes. -/
theorem readLoop_correct (st : FsState) :
    ∀ (chks : List ChunkRef) (pieces : List (List Nat)),
      RepChunks st chks pieces →
      ∀ (off endd co : Nat), off ≤ endd →
        readLoop st endd off chks co =
          some ((pieces.flatten.drop (off - co)).take (endd - max off co)) := by
  intro chks
  induction chks with
  | nil =>
    intro pieces hrep off endd co _
    have : pieces = [] := by
      cases pieces with
      | nil => rfl
      | cons p ps => simp [RepChunks] at hrep
    subst this
    simp [readLoop]
  | cons chk rest ih =>
    intro pieces hrep off endd co hoe
    cases pieces with
    | nil => simp [RepChunks] at hrep
    | cons p ps =>
    obtain ⟨hstore, hsz, hlt, hrest⟩ := hrep
    simp only [readLoop]
    by_cases hskip : co + chk.size ≤ off
    · rw [if_pos hskip, ih ps hrest off endd (co + chk.size) hoe]
      have h1 : (p :: ps).flatten.drop (off - co) =
          ps.flatten.drop (off - (co + chk.size)) := by
        simp only [List.flatten_cons]
        rw [List.drop_append_eq_append_drop,
          List.drop_eq_nil_of_le (show p.length ≤ off - co by omega), List.nil_append]
        congr 1
        omega
      have h2 : endd - max off (co + chk.size) = endd - max off co := by omega
      rw [h1, h2]
    · rw [if_neg hskip]
      by_cases hpast : co ≥ endd
      · rw [if_pos hpast]
        rw [show endd - max off co = 0 from by omega, List.take_zero]
      · rw [if_neg hpast]
        rw [hstore]
        simp only [Option.some_bind]
        have hss : (if off > co then off - co else 0) = off - co := by
          split <;> omega
        rw [hss]
        have hse_le : (if endd < co + chk.size then endd - co else chk.size) ≤ p.length := by
          split <;> omega
        have hss_le : off - co ≤ (if endd < co + chk.size then endd - co else chk.size) := by
          split <;> omega
        rw [if_pos ⟨hss_le, hse_le⟩]
        rw [ih ps hrest off endd (co + chk.size) hoe]
        simp only [Option.map_some']
        congr 1
        have hoverlap : off < co + chk.size := by omega
        have hs_le : off - co ≤ p.length := by omega
        rw [show off - (co + chk.size) = 0 from by omega, List.drop_zero,
          show max off (co + chk.size) = co + chk.size from by omega,
          List.flatten_cons, List.drop_append_of_le_length hs_le,
          List.take_append_eq_append_take, List.length_drop,
          show endd - max off co = endd - co - (off - co) from by omega]
        congr 1
        · by_cases hcase : endd < co + chk.size
          · rw [if_pos hcase]
          · rw [if_neg hcase,
              List.take_of_length_le (by rw [List.length_drop]; omega),
              List.take_of_length_le (by rw [List.length_drop]; omega)]
        · congr 1
          omega

/-- Correctness of `BangFH.Read` on a handle whose metadata satisfies the
chunk invariants: the result is exactly the bytes of the file content in
the clamped window, and in particular 0 bytes when `off ≥ size`. -/
theorem Read_correct (C : Nat) (hC : 0 < C) (st : FsState) (meta : InodeMeta)
    (content : List Nat) (destLen off : Nat)
    (hrep : Represents C st meta content) :
    Read st meta destLen off =
      some ((content.drop off).take (min (off + destLen) content.length - off)) := by
  obtain ⟨hrepc, hsize, _⟩ := hrep
  simp only [Read]
  by_cases hend : off ≥ meta.size
  · rw [if_pos hend]
    rw [List.drop_eq_nil_of_le (by omega), List.take_nil]
  · rw [if_neg hend]
    rw [readLoop_correct st meta.chunks (chunkPieces C content) hrepc off
      (min (off + destLen) meta.size) 0 (by omega)]
    rw [chunkPieces_flatten C hC content]
    rw [show off - 0 = off from rfl, show max off 0 = off from by omega, hsize]

/-- A record that canonically represents some content satisfies the chunk
invariants. -/
theorem Represents_inv (C : Nat) (hC : 0 < C) (st : FsState) (meta : InodeMeta)
    (content : List Nat) (h : Represents C st meta content) : ChunkInv C meta := by
  obtain ⟨hrep, hsize, hnd⟩ := h
  have hsizes : meta.chunks.map (·.size) = (chunkPieces C content).map List.length :=
    RepChunks_sizes st _ _ hrep
  have hlen : meta.chunks.length = (chunkPieces C content).length :=
    RepChunks_length st _ _ hrep
  refine ⟨?_, ?_, ?_, ?_⟩
  · rw [hsize, sumSizes, hsizes, chunkPieces_sum C hC content]
  · intro i r hr hi
    have h1 : (meta.chunks.map (·.size))[i]? = some r.size := by
      rw [List.getElem?_map, hr]
      rfl
    rw [hsizes, List.getElem?_map] at h1
    match hp : (chunkPieces C content)[i]? with
    | none => rw [hp] at h1; simp at h1
    | some p =>
      rw [hp] at h1
      simp only [Option.map_some', Option.some.injEq] at h1
      rw [← h1]
      exact chunkPieces_full C hC content i p hp (by omega)
  · intro r hr
    have hmem : r ∈ meta.chunks := by
      obtain ⟨hne, heq⟩ := List.mem_getLast?_eq_getLast (l := meta.chunks) (x := r)
        (by rw [Option.mem_def, hr])
      rw [heq]
      exact List.getLast_mem hne
    have hmem2 : r.size ∈ meta.chunks.map (·.size) := List.mem_map_of_mem _ hmem
    rw [hsizes] at hmem2
    obtain ⟨p, hp, hpl⟩ := List.mem_map.mp hmem2
    rw [← hpl]
    exact (chunkPieces_mem C hC content p hp).2
  · intro h0
    rw [h0] at hsize
    have hc : content = [] := List.length_eq_zero.mp hsize.symm
    rw [hc, chunkPieces_nil] at hlen
    exact List.length_eq_zero.mp (by simpa using hlen)

theorem sumSizes_nil : sumSizes [] = 0 := rfl

theorem sumSizes_cons (c : ChunkRef) (l : List ChunkRef) :
    sumSizes (c :: l) = c.size + sumSizes l := by
  simp [sumSizes]

/-- Specification of the truncate walk: starting below the target, it
stops at the first prefix whose cumulative size reaches `sz`. -/
theorem truncWalk_spec :
    ∀ (chks : List ChunkRef) (sz cum0 keep0 : Nat),
      cum0 < sz → sz ≤ cum0 + sumSizes chks →
      ∃ j, 1 ≤ j ∧ j ≤ chks.length ∧
        truncWalkAux sz chks keep0 cum0 = (keep0 + j, cum0 + sumSizes (chks.take j)) ∧
        cum0 + sumSizes (chks.take (j - 1)) < sz ∧
        sz ≤ cum0 + sumSizes (chks.take j) := by
  intro chks
  induction chks with
  | nil =>
    intro sz cum0 keep0 h1 h2
    rw [sumSizes_nil] at h2
    omega
  | cons c rest ih =>
    intro sz cum0 keep0 h1 h2
    simp only [truncWalkAux]
    by_cases hstop : cum0 + c.size ≥ sz
    · rw [if_pos hstop]
      refine ⟨1, le_rfl, by simp, ?_, ?_, ?_⟩
      · simp [sumSizes_cons, sumSizes_nil]
      · simpa [sumSizes_nil] using h1
      · simp only [List.take_succ_cons, List.take_zero, sumSizes_cons, sumSizes_nil]
        omega
    · rw [if_neg hstop]
      rw [sumSizes_cons] at h2
      obtain ⟨j, hj1, hjle, heq, hlt, hge⟩ :=
        ih sz (cum0 + c.size) (keep0 + 1) (by omega) (by omega)
      refine ⟨j + 1, by omega, by simp; omega, ?_, ?_, ?_⟩
      · rw [heq, Prod.mk.injEq]
        constructor
        · omega
        · simp only [List.take_succ_cons, sumSizes_cons]
          omega
      · rw [show j + 1 - 1 = (j - 1) + 1 from by omega]
        simp only [List.take_succ_cons, sumSizes_cons]
        omega
      · simp only [List.take_succ_cons, sumSizes_cons]
        omega

theorem chunkPieces_take_sum_aux (C : Nat) (hC : 0 < C) :
    ∀ n (content : List Nat), content.length ≤ n → ∀ i,
      (((chunkPieces C content).take i).map List.length).sum =
        min (i * C) content.length := by
  intro n
  induction n with
  | zero =>
    intro content h i
    have : content = [] := List.length_eq_zero.mp (Nat.le_zero.mp h)
    subst this
    simp [chunkPieces_nil]
  | succ n ih =>
    intro content h i
    by_cases hne : content = []
    · subst hne; simp [chunkPieces_nil]
    · have hlen : 0 < content.length := List.length_pos.mpr hne
      rw [chunkPieces_cons C hC content hne]
      match i with
      | 0 => simp
      | i + 1 =>
        simp only [List.take_succ_cons, List.map_cons, List.sum_cons, List.length_take]
        rw [ih (content.drop C) (by simp only [List.length_drop]; omega) i]
        simp only [List.length_drop]
        rw [Nat.succ_mul]
        omega

/-- Cumulative size of the first `i` canonical pieces. -/
theorem chunkPieces_take_sum (C : Nat) (hC : 0 < C) (content : List Nat) (i : Nat) :
    (((chunkPieces C content).take i).map List.length).sum =
      min (i * C) content.length :=
  chunkPieces_take_sum_aux C hC content.length content le_rfl i

/-- Chunking a prefix cut at a piece boundary takes a prefix of the pieces. -/
theorem chunkPieces_take_prefix (C : Nat) (hC : 0 < C) (content : List Nat) (i : Nat)
    (h : i * C ≤ content.length) :
    chunkPieces C (content.take (i * C)) = (chunkPieces C content).take i := by
  have hA_len : (content.take (i * C)).length = i * C := List.length_take_of_le h
  have hdvd : C ∣ (content.take (i * C)).length := ⟨i, by rw [hA_len, mul_comm]⟩
  have hcount : (chunkPieces C (content.take (i * C))).length = i := by
    have hx := chunkPieces_exact C hC _ hdvd
    rw [hA_len] at hx
    exact Nat.eq_of_mul_eq_mul_right hC hx
  conv_rhs => rw [← List.take_append_drop (i * C) content]
  rw [chunkPieces_append C hC _ _ hdvd, List.take_append_eq_append_take,
    List.take_of_length_le (le_of_eq hcount), hcount, Nat.sub_self, List.take_zero,
    List.append_nil]

theorem chunkPieces_getElem_aux (C : Nat) (hC : 0 < C) :
    ∀ n (content : List Nat), content.length ≤ n → ∀ i,
      i < (chunkPieces C content).length →
      (chunkPieces C content)[i]? = some ((content.drop (i * C)).take C) := by
  intro n
  induction n with
  | zero =>
    intro content h i hi
    have : content = [] := List.length_eq_zero.mp (Nat.le_zero.mp h)
    subst this
    simp [chunkPieces_nil] at hi
  | succ n ih =>
    intro content h i hi
    by_cases hne : content = []
    · subst hne; simp [chunkPieces_nil] at hi
    · have hlen : 0 < content.length := List.length_pos.mpr hne
      rw [chunkPieces_cons C hC content hne] at hi ⊢
      match i with
      | 0 => simp
      | i + 1 =>
        simp only [List.getElem?_cons_succ]
        simp only [List.length_cons] at hi
        rw [ih (content.drop C) (by simp only [List.length_drop]; omega) i (by omega)]
        rw [List.drop_drop, show C + i * C = (i + 1) * C from by rw [Nat.succ_mul]; omega]

/-- Formula for the canonical piece at a valid index. -/
theorem chunkPieces_getElem (C : Nat) (hC : 0 < C) (content : List Nat) (i : Nat)
    (hi : i < (chunkPieces C content).length) :
    (chunkPieces C content)[i]? = some ((content.drop (i * C)).take C) :=
  chunkPieces_getElem_aux C hC content.length content le_rfl i hi

theorem applyStale_nextKey :
    ∀ (stale : List Nat) (st : FsState), (applyStale st stale).nextKey = st.nextKey := by
  intro stale
  induction stale with
  | nil => intro st; rfl
  | cons s rest ih =>
    intro st
    show (applyStale (deleteChunk st s) rest).nextKey = st.nextKey
    rw [ih (deleteChunk st s)]
    rfl

theorem applyStale_not_mem :
    ∀ (stale : List Nat) (st : FsState) (k : Nat), k ∉ stale →
      (applyStale st stale).chunkStore k = st.chunkStore k := by
  intro stale
  induction stale with
  | nil => intro st k _; rfl
  | cons s rest ih =>
    intro st k hk
    show (applyStale (deleteChunk st s) rest).chunkStore k = st.chunkStore k
    rw [ih (deleteChunk st s) k (by intro h; exact hk (List.mem_cons_of_mem s h))]
    simp only [deleteChunk]
    rw [if_neg (by intro h; exact hk (h ▸ List.mem_cons_self s rest))]

/-- Representation is stable under any store change that leaves the listed
keys' entries intact and does not lower the key counter. -/
theorem RepChunks_congr_store (st st' : FsState) (hkey : st.nextKey ≤ st'.nextKey) :
    ∀ chks ps, RepChunks st chks ps →
      (∀ r ∈ chks, st'.chunkStore r.hash = st.chunkStore r.hash) →
      RepChunks st' chks ps := by
  intro chks
  induction chks with
  | nil =>
    intro ps h _
    cases ps with
    | nil => trivial
    | cons p ps => simp [RepChunks] at h
  | cons r rs ih =>
    intro ps h hst
    cases ps with
    | nil => simp [RepChunks] at h
    | cons p ps =>
      obtain ⟨h1, h2, h3, h4⟩ := h
      exact ⟨(hst r (List.mem_cons_self r rs)).trans h1, h2, by omega,
        ih ps h4 (fun x hx => hst x (List.mem_cons_of_mem r hx))⟩

theorem take_append_cons_one {α : Type} (l1 : List α) (c : α) (l2 : List α) :
    (l1 ++ c :: l2).take (l1.length + 1) = l1 ++ [c] := by
  induction l1 with
  | nil => simp
  | cons x xs ih => simp [ih]

theorem drop_append_cons_all {α : Type} (l1 : List α) (c : α) (l2 : List α) :
    (l1 ++ c :: l2).drop (l1.length + 1) = l2 := by
  induction l1 with
  | nil => simp
  | cons x xs ih => simp [ih]

/-- Representation only depends on a record's chunks and size. -/
theorem Represents_of_fields (C : Nat) (st : FsState) (meta meta' : InodeMeta)
    (content : List Nat) (hc : meta'.chunks = meta.chunks) (hs : meta'.size = meta.size)
    (h : Represents C st meta content) : Represents C st meta' content := by
  obtain ⟨h1, h2, h3⟩ := h
  exact ⟨by rw [hc]; exact h1, by rw [hs]; exact h2, by rw [hc]; exact h3⟩

/-- Correctness of the truncate path of Setattr: on a record canonically
representing `content`, truncation to `sz ≤ size` succeeds, and after the
stale chunks are deleted the store and the updated record canonically
represent `content.take sz`. -/
theorem truncStep_sim (C : Nat) (hC : 0 < C) (st : FsState) (meta : InodeMeta)
    (content : List Nat) (sz : Nat)
    (hrep : Represents C st meta content)
    (hfile : IsFile meta = true) (hsz : sz ≤ meta.size) :
    ∃ st1 meta1 stale,
      truncStep st meta sz = .ok (st1, meta1, stale) ∧
      meta1.size = sz ∧ meta1.name = meta.name ∧ meta1.mode = meta.mode ∧
      meta1.mtimeNs = meta.mtimeNs ∧ meta1.atimeNs = meta.atimeNs ∧
      Represents C (applyStale st1 stale) meta1 (content.take sz) := by
  obtain ⟨hrepc, hsize, hnd⟩ := hrep
  simp only [truncStep]
  rw [if_neg (not_not_intro hfile), if_neg (by omega : ¬ sz > meta.size)]
  by_cases hsz0 : sz = 0
  · subst hsz0
    rw [if_pos rfl]
    refine ⟨st, _, _, rfl, rfl, rfl, rfl, rfl, rfl, ?_, ?_, ?_⟩
    · show RepChunks (applyStale st _) [] (chunkPieces C (content.take 0))
      rw [List.take_zero, chunkPieces_nil]
      trivial
    · simp
    · simp
  · rw [if_neg hsz0]
    have hsumAll : sumSizes meta.chunks = content.length := by
      rw [sumSizes, RepChunks_sizes st _ _ hrepc, chunkPieces_sum C hC]
    have hL : sz ≤ content.length := by omega
    obtain ⟨j, hj1, hjle, hweq, hwlt, hwge⟩ :=
      truncWalk_spec meta.chunks sz 0 0 (by omega) (by omega)
    simp only [Nat.zero_add] at hweq hwlt hwge
    rw [hweq]
    simp only []
    rw [if_pos (by omega : (j : Nat) > 0)]
    have hsum_take : ∀ i, sumSizes (meta.chunks.take i) = min (i * C) content.length := by
      intro i
      rw [sumSizes, List.map_take, RepChunks_sizes st _ _ hrepc, ← List.map_take]
      exact chunkPieces_take_sum C hC content i
    have hjlt : (j - 1) * C < sz := by
      have h1 := hsum_take (j - 1)
      omega
    have hjm1 : (j - 1) * C + C = j * C := by
      have h1 : C ≤ j * C := Nat.le_mul_of_pos_left C (by omega)
      rw [Nat.sub_one_mul]
      omega
    have hcum := hsum_take j
    have hjge : sz ≤ min (j * C) content.length := by
      rw [← hcum]
      exact hwge
    have hjm1L : (j - 1) * C ≤ content.length := by omega
    have hnplen : meta.chunks.length = (chunkPieces C content).length :=
      RepChunks_length st _ _ hrepc
    have hjp : j - 1 < (chunkPieces C content).length := by omega
    have hpj : (chunkPieces C content)[j - 1]? =
        some ((content.drop ((j - 1) * C)).take C) :=
      chunkPieces_getElem C hC content (j - 1) hjp
    -- decompose the pieces and the chunk list at index j-1
    have hsplitP : chunkPieces C content =
        (chunkPieces C content).take (j - 1) ++
          ((content.drop ((j - 1) * C)).take C :: (chunkPieces C content).drop j) := by
      conv_lhs => rw [← List.take_append_drop (j - 1) (chunkPieces C content)]
      congr 1
      rw [List.drop_eq_getElem_cons hjp]
      congr 1
      · have h1 : some ((chunkPieces C content)[j - 1]) =
            some ((content.drop ((j - 1) * C)).take C) := by
          rw [← List.getElem?_eq_getElem hjp, hpj]
        exact Option.some.inj h1
      · congr 1
        omega
    have hrepP := hrepc
    rw [hsplitP] at hrepP
    obtain ⟨k1, ktail, hchks, hk1len, hrep1, hrep2⟩ :=
      RepChunks_split st _ meta.chunks _ hrepP
    cases ktail with
    | nil => simp [RepChunks] at hrep2
    | cons cr k2 =>
    obtain ⟨hcr_store, hcr_size, hcr_lt, hrep2'⟩ := hrep2
    have hk1len' : k1.length = j - 1 := by
      rw [hk1len, List.length_take]
      omega
    have hgetcr : meta.chunks[j - 1]? = some cr := by
      rw [hchks, ← hk1len']
      exact getElem_opt_append_cons k1 cr k2
    rw [hgetcr]
    simp only [Option.elim_some]
    have hp_len : ((content.drop ((j - 1) * C)).take C).length =
        min C (content.length - (j - 1) * C) := by
      rw [List.length_take, List.length_drop]
    have hcr_size_eq : cr.size = min C (content.length - (j - 1) * C) := by
      rw [hcr_size, hp_len]
    have hszl_le_cr : sz - (j - 1) * C ≤ cr.size := by rw [hcr_size_eq]; omega
    have hszl_pos : 1 ≤ sz - (j - 1) * C := by omega
    have hszl_leC : sz - (j - 1) * C ≤ C := by omega
    have hcs : sumSizes (meta.chunks.take j) - cr.size = (j - 1) * C := by
      rw [hcum, hcr_size_eq]
      omega
    rw [hcs]
    have htakej : meta.chunks.take j = k1 ++ [cr] := by
      rw [hchks, show j = k1.length + 1 from by omega]
      exact take_append_cons_one k1 cr k2
    have hdropj : meta.chunks.drop j = k2 := by
      rw [hchks, show j = k1.length + 1 from by omega]
      exact drop_append_cons_all k1 cr k2
    rw [htakej, hdropj]
    -- the content prefix decomposes at the last kept chunk
    have hp_take_szl : ((content.drop ((j - 1) * C)).take C).take (sz - (j - 1) * C) =
        (content.drop ((j - 1) * C)).take (sz - (j - 1) * C) := by
      rw [List.take_take, min_eq_left hszl_leC]
    have hcontent_take : content.take sz =
        content.take ((j - 1) * C) ++
          ((content.drop ((j - 1) * C)).take C).take (sz - (j - 1) * C) := by
      conv_lhs => rw [← List.take_append_drop ((j - 1) * C) (content.take sz)]
      congr 1
      · rw [List.take_take, min_eq_left (by omega)]
      · rw [List.drop_take, hp_take_szl]
    have hptszl_len :
        (((content.drop ((j - 1) * C)).take C).take (sz - (j - 1) * C)).length =
          sz - (j - 1) * C := by
      rw [List.length_take, List.length_take, List.length_drop]
      omega
    have hpieces_take : chunkPieces C (content.take sz) =
        (chunkPieces C content).take (j - 1) ++
          [((content.drop ((j - 1) * C)).take C).take (sz - (j - 1) * C)] := by
      rw [hcontent_take,
        chunkPieces_append C hC _ _
          ⟨j - 1, by rw [List.length_take_of_le hjm1L, mul_comm]⟩,
        chunkPieces_take_prefix C hC content (j - 1) hjm1L]
      congr 1
      exact chunkPieces_singleton C hC _
        (by
          intro h0
          rw [h0] at hptszl_len
          simp at hptszl_len
          omega)
        (by rw [hptszl_len]; omega)
    have hk1P : (chunkPieces C content).take (j - 1) =
        (chunkPieces C content).take (j - 1) := rfl
    -- nodup components of the chunk keys
    have hmapsplit : meta.chunks.map (·.hash) =
        k1.map (·.hash) ++ cr.hash :: k2.map (·.hash) := by
      rw [hchks]
      simp
    rw [hmapsplit] at hnd
    obtain ⟨hndk1, hndrest, hdisj⟩ := List.nodup_append.mp hnd
    obtain ⟨hcrnotk2, hndk2⟩ := List.nodup_cons.mp hndrest
    have hk1lt : ∀ r ∈ k1, r.hash < st.nextKey :=
      RepChunks_hash_lt st k1 _ hrep1
    have hk2lt : ∀ r ∈ k2, r.hash < st.nextKey :=
      RepChunks_hash_lt st k2 _ hrep2'
    have hsz_len : sz = (content.take sz).length := by
      rw [List.length_take]
      omega
    by_cases hshrink : sz - (j - 1) * C < cr.size
    · -- the last kept chunk must be shortened under a fresh key
      rw [if_pos hshrink, hcr_store]
      simp only [Option.elim_some]
      rw [if_pos (show sz - (j - 1) * C ≤
        ((content.drop ((j - 1) * C)).take C).length from by rw [← hcr_size]; omega)]
      have hsetgen : ∀ v : ChunkRef, (k1 ++ [cr]).set (j - 1) v = k1 ++ [v] := by
        intro v
        rw [show j - 1 = k1.length from hk1len'.symm]
        exact set_append_cons k1 cr v []
      refine ⟨_, _, _, rfl, rfl, rfl, rfl, rfl, rfl, ?_, ?_, ?_⟩
      · -- representation of the truncated content
        show RepChunks _ ((k1 ++ [cr]).set (j - 1) ⟨st.nextKey, sz - (j - 1) * C⟩)
          (chunkPieces C (content.take sz))
        rw [hpieces_take, hsetgen]
        have hstale_lt : ∀ x ∈ k2.map (·.hash) ++ [cr.hash], x < st.nextKey := by
          intro x hx
          rcases List.mem_append.mp hx with h | h
          · obtain ⟨r, hr, hr2⟩ := List.mem_map.mp h
            rw [← hr2]
            exact hk2lt r hr
          · simp at h
            omega
        apply RepChunks_append
        · apply RepChunks_congr_store st _ ?_ _ _ hrep1
          · intro r hr
            rw [applyStale_not_mem _ _ _ ?_]
            · exact putChunk_ne _ _ _ _ (by have := hk1lt r hr; omega)
            · intro hmem
              rcases List.mem_append.mp hmem with h | h
              · exact hdisj (List.mem_map_of_mem _ hr) (List.mem_cons_of_mem _ h)
              · simp at h
                exact hdisj (List.mem_map_of_mem _ hr) (h ▸ List.mem_cons_self _ _)
          · rw [applyStale_nextKey]
            show st.nextKey ≤ st.nextKey + 1
            omega
        · refine ⟨?_, hptszl_len.symm, ?_, trivial⟩
          · rw [applyStale_not_mem _ _ _ (by
              intro hmem
              simp only [] at hmem
              have := hstale_lt _ hmem
              omega)]
            exact putChunk_at _ _ _
          · rw [applyStale_nextKey]
            show st.nextKey < st.nextKey + 1
            omega
      · exact hsz_len
      · show (((k1 ++ [cr]).set (j - 1) ⟨st.nextKey, sz - (j - 1) * C⟩).map
          (·.hash)).Nodup
        rw [hsetgen, List.map_append]
        apply List.Nodup.append hndk1 (by simp)
        intro x hx hx2
        simp at hx2
        obtain ⟨r, hr, hr2⟩ := List.mem_map.mp hx
        have := hk1lt r hr
        omega
    · -- the new size ends exactly at the kept chunk's boundary
      rw [if_neg hshrink]
      have hszl_eq : sz - (j - 1) * C = cr.size := by omega
      have hp_full : ((content.drop ((j - 1) * C)).take C).take (sz - (j - 1) * C) =
          (content.drop ((j - 1) * C)).take C := by
        rw [show sz - (j - 1) * C = ((content.drop ((j - 1) * C)).take C).length from
          by rw [← hcr_size]; omega]
        exact List.take_length _
      refine ⟨_, _, _, rfl, rfl, rfl, rfl, rfl, rfl, ?_, ?_, ?_⟩
      · show RepChunks _ (k1 ++ [cr]) (chunkPieces C (content.take sz))
        rw [hpieces_take, hp_full]
        apply RepChunks_append
        · apply RepChunks_congr_store st _ ?_ _ _ hrep1
          · intro r hr
            apply applyStale_not_mem
            intro hmem
            obtain ⟨r2, hr2, hr22⟩ := List.mem_map.mp hmem
            exact hdisj (List.mem_map_of_mem _ hr)
              (List.mem_cons_of_mem _ (hr22 ▸ List.mem_map_of_mem _ hr2))
          · rw [applyStale_nextKey]
        · refine ⟨?_, hcr_size, ?_, trivial⟩
          · rw [applyStale_not_mem _ _ _ hcrnotk2]
            exact hcr_store
          · rw [applyStale_nextKey]
            omega
      · exact hsz_len
      · show ((k1 ++ [cr]).map (·.hash)).Nodup
        rw [List.map_append]
        apply List.Nodup.append hndk1 (by simp)
        intro x hx hx2
        simp at hx2
        exact hdisj hx (hx2 ▸ List.mem_cons_self _ _)

/-- Setattr rejects the whole call with ENOTSUP whenever uid or gid is
marked as set, before mutating anything. -/
theorem Setattr_uid_gid (st : FsState) (meta : InodeMeta) (att : SetAttrIn)
    (h : att.uid.isSome ∨ att.gid.isSome) :
    Setattr st meta att = .error .enotsup := by
  simp only [Setattr]
  rw [if_pos h]

/-- A successful Setattr preserves canonical representability: the
committed record and store represent the (possibly truncated) content. -/
theorem Setattr_rep (C : Nat) (hC : 0 < C) (st : FsState) (meta : InodeMeta)
    (att : SetAttrIn) (st' : FsState) (meta' : InodeMeta) (content : List Nat)
    (hrep : Represents C st meta content)
    (hok : Setattr st meta att = .ok (st', meta')) :
    ∃ content', Represents C st' meta' content' := by
  simp only [Setattr] at hok
  by_cases huid : att.uid.isSome ∨ att.gid.isSome
  · rw [if_pos huid] at hok
    exact absurd hok (by simp)
  rw [if_neg huid] at hok
  cases hattsz : att.size with
  | none =>
    rw [hattsz] at hok
    simp only [Option.elim_none, Except.bind] at hok
    have h2 := Except.ok.inj hok
    have h3 := congrArg Prod.fst h2
    have h4 := congrArg Prod.snd h2
    simp only [] at h3 h4
    rw [← h3, ← h4]
    refine ⟨content, Represents_of_fields C _ meta _ content ?_ ?_ hrep⟩
    · cases att.mode <;> cases att.mtime <;> cases att.atime <;> rfl
    · cases att.mode <;> cases att.mtime <;> cases att.atime <;> rfl
  | some sz =>
    rw [hattsz] at hok
    simp only [Option.elim_some] at hok
    cases hts : truncStep st meta sz with
    | error e =>
      rw [hts] at hok
      exact absurd hok (by simp [Except.bind])
    | ok s =>
      rw [hts] at hok
      simp only [Except.bind] at hok
      have hfile : IsFile meta = true := by
        by_contra hf
        have hx : truncStep st meta sz = .error .enotsup := by
          simp only [truncStep]
          rw [if_pos hf]
        rw [hx] at hts
        exact absurd hts (by simp)
      have hszle : sz ≤ meta.size := by
        by_contra hs
        have hx : truncStep st meta sz = .error .enotsup := by
          simp only [truncStep]
          rw [if_neg (not_not_intro hfile), if_pos (by omega)]
        rw [hx] at hts
        exact absurd hts (by simp)
      obtain ⟨st1, meta1, stale, heq, hsz1, hname, hmode, hmt, hat, hrep1⟩ :=
        truncStep_sim C hC st meta content sz hrep hfile hszle
      rw [heq] at hts
      have hs_eq := Except.ok.inj hts
      rw [← hs_eq] at hok
      simp only [] at hok
      have h2 := Except.ok.inj hok
      have h3 := congrArg Prod.fst h2
      have h4 := congrArg Prod.snd h2
      simp only [] at h3 h4
      rw [← h3, ← h4]
      refine ⟨content.take sz, Represents_of_fields C _ meta1 _ (content.take sz) ?_ ?_ hrep1⟩
      · cases att.mode <;> cases att.mtime <;> cases att.atime <;> rfl
      · cases att.mode <;> cases att.mtime <;> cases att.atime <;> rfl

/-! ## Vclock encoding lemmas and reachability -/

theorem leEncode64_length (v : Nat) : (leEncode64 v).length = 8 := rfl

/-- Decoding an encoded counter recovers it modulo `2^64`. -/
theorem leDecode_leEncode64 (v : Nat) : leDecode (leEncode64 v) = v % 2 ^ 64 := by
  simp only [leEncode64, leDecode]
  omega

/-- A list of genuine bytes decodes below `256 ^ length`. -/
theorem leDecode_lt : ∀ l : List Nat, (∀ b ∈ l, b < 256) → leDecode l < 256 ^ l.length := by
  intro l
  induction l with
  | nil => intro _; simp [leDecode]
  | cons b bs ih =>
    intro hb
    have h1 : b < 256 := hb b (List.mem_cons_self _ _)
    have h2 : leDecode bs < 256 ^ bs.length :=
      ih fun x hx => hb x (List.mem_cons_of_mem _ hx)
    simp only [leDecode, List.length_cons, pow_succ]
    calc b + 256 * leDecode bs < 256 + 256 * leDecode bs := by omega
      _ ≤ 256 * (leDecode bs + 1) := by ring_nf; omega
      _ ≤ 256 * 256 ^ bs.length := by
          apply Nat.mul_le_mul_left
          omega
      _ = 256 ^ bs.length * 256 := by ring

/-- The single chunk of `exSt1` canonically represents the bytes `[9, 8]`
of `exMeta1` at chunk size 4. -/
theorem exRep1 : Represents 4 exSt1 exMeta1 [9, 8] := by
  refine ⟨?_, rfl, by decide⟩
  show RepChunks exSt1 [⟨0, 2⟩] (chunkPieces 4 [9, 8])
  have h : chunkPieces 4 [9, 8] = [[9, 8]] := by decide
  rw [h]
  exact ⟨rfl, rfl, Nat.zero_lt_one, trivial⟩

/-- Every committed record reachable by creates, non-empty writes and
successful setattrs canonically represents some content. -/
theorem Reach_represents (C : Nat) (hC : 0 < C) (st : FsState) (meta : InodeMeta)
    (h : Reach C st meta) : ∃ content, Represents C st meta content := by
  induction h with
  | create st name p m u g now =>
    exact ⟨[], trivial, rfl, List.nodup_nil⟩
  | write st meta flags data off st' meta' _ hne hw ih =>
    obtain ⟨content, hrep⟩ := ih
    obtain ⟨st2, meta2, heq, _, hrep2, _⟩ :=
      Write_sim C flags hC st meta content data off hrep hne
    have hpe : (st2, meta2) = (st', meta') := Option.some.inj (heq.symm.trans hw)
    have h1 : st2 = st' := congrArg Prod.fst hpe
    have h2 : meta2 = meta' := congrArg Prod.snd hpe
    rw [← h1, ← h2]
    exact ⟨_, hrep2⟩
  | setattr st meta att st' meta' _ hs ih =>
    obtain ⟨content, hrep⟩ := ih
    exact Setattr_rep C hC st meta att st' meta' content hrep hs

/-! ## The claims -/

/-- Claim C1: for a handle whose record canonically represents its
content, `Read(dest, off)` returns 0 bytes when `off ≥ size`, and
otherwise exactly the bytes of the file content in the window
`[off, min (off + len dest) size)`. -/
theorem C1_read_window (C : Nat) (hC : 0 < C) (st : FsState) (meta : InodeMeta)
    (content : List Nat) (destLen off : Nat)
    (hrep : Represents C st meta content) :
    (off ≥ meta.size → Read st meta destLen off = some []) ∧
    Read st meta destLen off =
      some ((content.drop off).take (min (off + destLen) meta.size - off)) := by
  constructor
  · intro hoff
    simp only [Read]
    rw [if_pos hoff]
  · rw [hrep.size_eq]
    exact Read_correct C hC st meta content destLen off hrep

/-- Witness for C1 at the concrete file `exSt1`/`exMeta1`: an in-range
read returns the window, an at-EOF read returns 0 bytes. -/
theorem C1_witness :
    Read exSt1 exMeta1 5 1 = some [8] ∧ Read exSt1 exMeta1 5 2 = some [] := by
  have h1 := C1_read_window 4 (by decide) exSt1 exMeta1 [9, 8] 5 1 exRep1
  have h2 := C1_read_window 4 (by decide) exSt1 exMeta1 [9, 8] 5 2 exRep1
  refine ⟨?_, h2.1 (by decide)⟩
  rw [h1.2]
  decide

/-- Counterexample to C2: a successful `Write` of empty data at offset 1
past EOF (size 0) zero-fills the gap but commits size 0, not
`max size (off + len data) = 1`. -/
theorem C2_counterexample :
    ∃ st' meta', Write 4 0 exSt0 exMeta0 [] 1 = some (st', meta') ∧
      meta'.size = 0 ∧ meta'.size ≠ max exMeta0.size (1 + List.length ([] : List Nat)) := by
  refine ⟨putChunk { exSt0 with nextKey := 1 } 0 [0],
    { exMeta0 with chunks := [⟨0, 1⟩], size := 0 }, rfl, rfl, by decide⟩

/-- Claim C2 (amended): for `Write(data, off)` with non-empty data,
`O_APPEND` replaces the offset with the current size, a write past EOF
zero-fills the gap through the chunked-write path, and the committed
size is `max size (off' + len data)`. -/
theorem C2_amended (C flags : Nat) (hC : 0 < C) (st : FsState) (meta : InodeMeta)
    (content data : List Nat) (off : Nat)
    (hrep : Represents C st meta content) (hne : data ≠ []) :
    ∃ st' meta',
      Write C flags st meta data off = some (st', meta') ∧
      meta'.size =
        max meta.size ((if flags &&& O_APPEND ≠ 0 then meta.size else off) + data.length) ∧
      Represents C st' meta'
        (splice
          (content ++ List.replicate
            ((if flags &&& O_APPEND ≠ 0 then meta.size else off) - content.length) 0)
          (if flags &&& O_APPEND ≠ 0 then meta.size else off) data) := by
  obtain ⟨st', meta', h1, h2, h3, _⟩ := Write_sim C flags hC st meta content data off hrep hne
  exact ⟨st', meta', h1, h2, h3⟩

/-- Witness for C2 (amended) at `exSt1`/`exMeta1`: writing one byte at
offset 3 of the 2-byte file commits size `max 2 4 = 4`. -/
theorem C2_witness :
    ∃ st' meta', Write 4 0 exSt1 exMeta1 [7] 3 = some (st', meta') ∧ meta'.size = 4 := by
  obtain ⟨st', meta', h1, h2, _⟩ :=
    C2_amended 4 0 (by decide) exSt1 exMeta1 [9, 8] [7] 3 exRep1 (by decide)
  refine ⟨st', meta', h1, ?_⟩
  rw [h2]
  decide

/-- Counterexample to C3: one successful `Write` of empty data past EOF,
starting from a freshly created file, commits a record violating the
chunk invariants (`size = 0` with a non-empty chunk list whose sizes sum
to 1). -/
theorem C3_counterexample :
    ∃ st' meta',
      Write 4 0 exSt0 (freshFileMeta "f" 1 420 0 0 0) [] 1 = some (st', meta') ∧
      ¬ ChunkInv 4 meta' := by
  refine ⟨putChunk { exSt0 with nextKey := 1 } 0 [0],
    { freshFileMeta "f" 1 420 0 0 0 with chunks := [⟨0, 1⟩], size := 0 }, rfl, ?_⟩
  intro h
  obtain ⟨h1, -, -, -⟩ := h
  revert h1
  decide

/-- Claim C3 (amended): every committed record reachable from a freshly
created regular file through successful writes of non-empty data and
successful setattrs (truncates included) satisfies the chunk invariants:
size is the sum of the chunk sizes, all chunks but the last are exactly
`C` bytes, the last is at most `C` bytes, and size 0 means no chunks. -/
theorem C3_reach_inv (C : Nat) (hC : 0 < C) (st : FsState) (meta : InodeMeta)
    (h : Reach C st meta) : ChunkInv C meta := by
  obtain ⟨content, hrep⟩ := Reach_represents C hC st meta h
  exact Represents_inv C hC st meta content hrep

/-- Witness for C3 (amended): a freshly created file satisfies the chunk
invariants. -/
theorem C3_witness : ChunkInv 4 (freshFileMeta "f" 1 420 0 0 0) :=
  C3_reach_inv 4 (by decide) exSt0 (freshFileMeta "f" 1 420 0 0 0)
    (Reach.create exSt0 "f" 1 420 0 0 0)

/-- Claim C4 (code bug, exhibited): a successful setattr truncate to
size 0 of the 6-byte file with chunks keyed 0 and 1 commits an empty
chunk list and size 0, but only chunk key 1 is deleted from the bucket;
chunk key 0, listed in the file's chunks before the truncate, is still
present afterwards (the walk stops with `keep = 1`, never 0). -/
theorem C4_truncate_leak :
    ∃ st' meta', Setattr exSt4 exMeta4 { size := some 0 } = .ok (st', meta') ∧
      meta'.chunks = [] ∧ meta'.size = 0 ∧
      st'.chunkStore 1 = none ∧ st'.chunkStore 0 = some [1, 2, 3, 4] := by
  refine ⟨applyStale exSt4 [1], { exMeta4 with chunks := [], size := 0 },
    rfl, rfl, rfl, rfl, rfl⟩

/-- Claim C5: in the local-file backend, after a successful
`UpdateMetadata` with an 8-byte token `t` against an 8-byte stored
counter, presenting the same `t` again returns Conflict. -/
theorem C5_cas_monotonic (e : FileKVEntry) (cur t : List Nat) (m1 m2 : InodeMeta)
    (e' : FileKVEntry) (nv : List Nat)
    (hcur : e.vclock = some cur) (hcl : cur.length = 8) (htl : t.length = 8)
    (hb : ∀ b ∈ t, b < 256)
    (hok : fileUpdateMetadata e m1 t = .ok (e', nv)) :
    fileUpdateMetadata e' m2 t = .error .conflict := by
  simp only [fileUpdateMetadata, hcur] at hok
  by_cases hcond : t.length = 8 ∧ cur.length = 8 ∧ leDecode t ≠ leDecode cur
  · rw [if_pos hcond] at hok
    exact absurd hok (by simp)
  · rw [if_neg hcond, if_pos hcl] at hok
    have heq : leDecode t = leDecode cur := by
      by_contra hne
      exact hcond ⟨htl, hcl, hne⟩
    have h1 := Except.ok.inj hok
    have he' : e' =
        { meta := some m1, vclock := some (leEncode64 ((leDecode cur + 1) % 2 ^ 64)) } :=
      (congrArg Prod.fst h1).symm
    have hlt : leDecode t < 2 ^ 64 := by
      have h2 := leDecode_lt t hb
      rw [htl] at h2
      calc leDecode t < 256 ^ 8 := h2
        _ = 2 ^ 64 := by norm_num
    simp only [fileUpdateMetadata, he']
    rw [if_pos ?_]
    refine ⟨htl, leEncode64_length _, ?_⟩
    rw [leDecode_leEncode64, ← heq]
    omega

/-- Witness for C5: committing with counter token 5 against stored
counter 5 bumps it to 6, after which token 5 conflicts. -/
theorem C5_witness :
    fileUpdateMetadata ⟨some {}, some (leEncode64 6)⟩ {} (leEncode64 5) =
      .error .conflict := by
  refine C5_cas_monotonic ⟨some {}, some (leEncode64 5)⟩ (leEncode64 5) (leEncode64 5)
    {} {} ⟨some {}, some (leEncode64 6)⟩ (leEncode64 6)
    rfl (by decide) (by decide) (by decide) ?_
  rfl

/-- Counterexample to C6: after a successful truncate of `exMeta4` to
size 1, a `Read` that still uses the handle's cached record `exMeta4`
fails on the deleted chunks (rather than observing the shrunk size),
while a `Read` over the resynced record returns the truncated byte. -/
theorem C6_counterexample :
    ∃ st' meta', Setattr exSt4 exMeta4 { size := some 1 } = .ok (st', meta') ∧
      meta'.size = 1 ∧
      Read st' exMeta4 6 0 = none ∧ Read st' meta' 6 0 = some [1] ∧
      Read st' exMeta4 6 0 ≠ Read st' meta' 6 0 := by
  refine ⟨applyStale (putChunk { exSt4 with nextKey := 3 } 2 [1]) [1, 0],
    { exMeta4 with chunks := [⟨2, 1⟩], size := 1 }, rfl, rfl, rfl, rfl, by decide⟩

/-- Claim C6 (amended): `Read` does not resync the record from the
backend; its result is computed from the handle's cached record alone
(the window of the content that cached record represents). -/
theorem C6_cached_read (C : Nat) (hC : 0 < C) (st : FsState) (cached : InodeMeta)
    (cachedContent : List Nat) (destLen off : Nat)
    (hrep : Represents C st cached cachedContent) :
    Read st cached destLen off =
      some ((cachedContent.drop off).take
        (min (off + destLen) cachedContent.length - off)) :=
  Read_correct C hC st cached cachedContent destLen off hrep

/-- Witness for C6 (amended) at `exSt1`/`exMeta1`. -/
theorem C6_witness : Read exSt1 exMeta1 2 0 = some [9, 8] := by
  have h := C6_cached_read 4 (by decide) exSt1 exMeta1 [9, 8] 2 0 exRep1
  rw [h]
  decide

/-- Claim C7: a setattr in which uid or gid is marked as set fails with
ENOTSUP and commits nothing, whatever other fields (size, mode, atime,
mtime) the same call sets. -/
theorem C7_uid_gid_rejected (st : FsState) (meta : InodeMeta) (att : SetAttrIn)
    (h : att.uid.isSome ∨ att.gid.isSome) :
    Setattr st meta att = .error .enotsup :=
  Setattr_uid_gid st meta att h

/-- Witness for C7: a call setting uid together with size and mode is
rejected whole. -/
theorem C7_witness :
    Setattr exSt1 exMeta1 { uid := some 0, size := some 0, mode := some 511 } =
      .error .enotsup :=
  C7_uid_gid_rejected exSt1 exMeta1 _ (Or.inl rfl)

/-- Claim C8 (code bug, exhibited): `NextId` does not lay the fields out
as claimed. With `ms = 0, seq = 1, local_id = 0` it returns `1 <<< 14 =
16384` while the claimed layout gives `1 <<< 13 = 8192`; the claimed
middle field (bits 13..26) of the generated id reads 2, not 1; and the
milliseconds are not truncated to 13 bits, so `ms = 16384` collides with
`seq = 1`. -/
theorem C8_field_layout :
    NextId 0 1 0 = 16384 ∧ specIdLayout 0 1 0 = 8192 ∧
    (NextId 0 1 0 >>> TIME_BITS) % 2 ^ SEQ_BITS = 2 ∧
    NextId 16384 0 0 = NextId 0 1 0 := by
  refine ⟨?_, ?_, ?_, ?_⟩ <;> decide

/-- Claim C9: the local-file backend's `UpdateMetadata` skips the version
comparison whenever the caller's token is not exactly 8 bytes: the update
commits unconditionally and the stored counter is still bumped (8-byte
counters are incremented `% 2^64`, anything else is reset to 1). -/
theorem C9_skips_check (e : FileKVEntry) (cur t : List Nat) (m : InodeMeta)
    (hcur : e.vclock = some cur) (htl : t.length ≠ 8) :
    fileUpdateMetadata e m t =
      .ok ({ meta := some m,
             vclock := some (leEncode64
               (if cur.length = 8 then (leDecode cur + 1) % 2 ^ 64 else 1)) },
           leEncode64 (if cur.length = 8 then (leDecode cur + 1) % 2 ^ 64 else 1)) := by
  simp only [fileUpdateMetadata, hcur]
  rw [if_neg fun h => htl h.1]

/-- Witness for C9: an empty token against stored counter 5 commits and
bumps the counter to 6. -/
theorem C9_witness :
    fileUpdateMetadata ⟨some {}, some (leEncode64 5)⟩ {} [] =
      .ok (⟨some {}, some (leEncode64 6)⟩, leEncode64 6) := by
  have h := C9_skips_check ⟨some {}, some (leEncode64 5)⟩ (leEncode64 5) [] {}
    rfl (by decide)
  rw [h]
  rfl

/-- Counterexample to C10: with the parent fetch, the entry scan and the
parent CAS all succeeding but the child record missing, `Unlink` returns
EIO, not success. -/
theorem C10_counterexample :
    Unlink exKV 1 "f" = .eio ∧ Unlink exKV 1 "f" ≠ .ok := by
  refine ⟨?_, ?_⟩ <;> decide

/-- Claim C10 (amended): `Unlink(name)` returns success whenever the
parent fetch, the entry scan, the parent-directory CAS and the child
record fetch succeed, whatever the outcomes of the subsequent chunk and
metadata deletions (their failures are only logged), so success does not
guarantee the child inode or its chunks were removed. -/
theorem C10_ok_ignores_deletes (kv : KVOracle) (p : Nat) (name : String)
    (dirMeta fileMeta : InodeMeta)
    (hp : kv.metadata p = some dirMeta)
    (hfound : (unlinkScan name dirMeta.childEntries).2.1 = true)
    (hcas : kv.casOk p = true)
    (hchild : kv.metadata (unlinkScan name dirMeta.childEntries).2.2 = some fileMeta) :
    Unlink kv p name = .ok := by
  simp only [Unlink, hp, hfound, hcas, hchild]
  decide

/-- Witness for C10 (amended): on `exKV2`, where every delete call
fails, Unlink still returns 0. -/
theorem C10_witness : Unlink exKV2 1 "f" = .ok := by
  refine C10_ok_ignores_deletes exKV2 1 "f" { childEntries := [("f", 5)] } exMeta1
    rfl (by decide) rfl rfl

end BangFS
